import Mathlib

/-!
Verification of `update_sky_map_table.py`, a batch tool that synchronizes a
Markdown table of map identifiers against an identifier list and two
`.strings` translation files.

Text is modelled as `List Char` (`Str`).  Python `dict`s are modelled as
association lists with Python-dict semantics: updating an existing key keeps
its position, a fresh key is appended at the end.  Each function below is a
direct transcription of the correspondingly named Python function.
-/

namespace SkyMap

abbrev Str := List Char

/-- Characters matched by Python `\s` / stripped by `str.strip()` (ASCII range,
which covers all inputs the tool handles). -/
def pyWs (c : Char) : Bool :=
  c = ' ' || c = '\t' || c = '\n' || c = '\r' || c = '\x0b' || c = '\x0c'

/-- Python `str.strip()`: drop leading and trailing whitespace. -/
def strip (s : Str) : Str :=
  ((s.dropWhile pyWs).reverse.dropWhile pyWs).reverse

/-- Python `str.strip('|')`: drop leading and trailing pipe characters. -/
def stripPipe (s : Str) : Str :=
  ((s.dropWhile (fun c => c = '|')).reverse.dropWhile (fun c => c = '|')).reverse

/-- Python `s.startswith('|')`. -/
def startsPipe : Str → Bool
  | [] => false
  | c :: _ => c = '|'

/-- Python substring test `needle in hay`. -/
def hasInfix (needle : Str) : Str → Bool
  | [] => needle.isPrefixOf []
  | c :: rest => needle.isPrefixOf (c :: rest) || hasInfix needle rest

/-- Python `str.lower()` (ASCII case mapping, which covers the identifiers the
tool handles). -/
def lowerStr (s : Str) : Str := s.map Char.toLower

/-- Lookup in an association list (Python `d[k]` / `k in d`): first entry with
the given key.  By construction all dictionaries built below have distinct
keys. -/
def alookup (k : Str) : List (Str × α) → Option α
  | [] => none
  | (k2, v) :: rest => if k2 = k then some v else alookup k rest

/-- Python `d.get(k, dflt)`. -/
def agetD (d : List (Str × α)) (k : Str) (dflt : α) : α :=
  (alookup k d).getD dflt

/-- Python `k in d`. -/
def amem (k : Str) (d : List (Str × α)) : Bool :=
  (alookup k d).isSome

/-- Python `d[k] = v`: replace the value of an existing key in place, append a
fresh key at the end. -/
def ainsert (k : Str) (v : α) : List (Str × α) → List (Str × α)
  | [] => [(k, v)]
  | (k2, v2) :: rest => if k2 = k then (k2, v) :: rest else (k2, v2) :: ainsert k v rest

/-- Python `list(d.keys())`. -/
def akeys (d : List (Str × α)) : List Str := d.map Prod.fst

/-- A record: one table row, mapping column name to cell value. -/
abbrev Rec := List (Str × Str)

/-- The table data: identifier → record. -/
abbrev Table := List (Str × Rec)

/-- A translation map: key → localized value. -/
abbrev TransMap := List (Str × Str)

/-- String comparison as Python uses for `sorted`: lexicographic by code
point. -/
def strLe : Str → Str → Bool
  | [], _ => true
  | _ :: _, [] => false
  | a :: as, b :: bs => if a < b then true else if b < a then false else strLe as bs

/-- Python `sorted` on a list of strings. -/
def sortStrs (l : List Str) : List Str :=
  l.insertionSort (fun a b => strLe a b = true)

/-! ### Column names of the table -/

def colId : Str := "标识符".data
def colZh : Str := "中文名".data
def colNick : Str := "玩家社区称呼".data
def colEn : Str := "英文名".data
def colKey : Str := "翻译键".data
def colVer : Str := "存在版本".data
def colGroup : Str := "隶属于".data
def colShot : Str := "截图".data
def colNote : Str := "注释".data

/-- The fixed default header used when no table is found. -/
def defaultHeaders : List Str :=
  [colId, colZh, colNick, colEn, colKey, colVer, colGroup, colShot, colNote]

/-! ### `parse_level_list` -/

/-- `re.sub(r'\s+', ' ', s)`: collapse each maximal whitespace run to one
space.  The boolean tracks whether the previous character was whitespace. -/
def collapseGo : Bool → Str → Str
  | _, [] => []
  | prevWs, c :: rest =>
    if pyWs c then
      if prevWs then collapseGo true rest else ' ' :: collapseGo true rest
    else c :: collapseGo false rest

/-- Extract all map identifiers from the enumeration file content
(`parse_level_list`, lines 10-30 of the source, with the file already read). -/
def parse_level_list (content : Str) : List Str :=
  let c1 := content.map (fun c => if c = '\n' then ' ' else if c = '\r' then ' ' else c)
  let c2 := collapseGo false c1
  let c3 := strip c2
  if c3 = [] then []
  else (c3.splitOn ' ').filter (fun t => t ≠ [])

/-! ### `parse_strings_file`

The regex `"([^"]+)"\s*=\s*"([^"]*)"\s*;` is deterministic: every quantifier
in it is cut off by the literal that follows (a non-quote run by a quote, a
whitespace run by a non-whitespace literal), so backtracking never yields a
second alternative and a greedy one-pass matcher is exact. -/

/-- Try to match one `"key" = "value";` entry at the head of the string;
return the key, the value and the remainder after the match. -/
def matchEntry : Str → Option (Str × Str × Str)
  | '"' :: rest =>
    let k := rest.takeWhile (fun c => c ≠ '"')
    if k = [] then none else
    match rest.dropWhile (fun c => c ≠ '"') with
    | '"' :: r2 =>
      match r2.dropWhile pyWs with
      | '=' :: r4 =>
        match r4.dropWhile pyWs with
        | '"' :: r6 =>
          let v := r6.takeWhile (fun c => c ≠ '"')
          match r6.dropWhile (fun c => c ≠ '"') with
          | '"' :: r8 =>
            match r8.dropWhile pyWs with
            | ';' :: r10 => some (k, v, r10)
            | _ => none
          | _ => none
        | _ => none
      | _ => none
    | _ => none
  | _ => none

/-- `re.findall` scan: at each position try to match an entry; on success
continue after it, otherwise advance one character.  Each step consumes at
least one character, so `s.length` steps of fuel always suffice. -/
def scanFrom : Nat → Str → List (Str × Str)
  | 0, _ => []
  | _, [] => []
  | fuel + 1, c :: rest =>
    match matchEntry (c :: rest) with
    | some (k, v, r) => (k, v) :: scanFrom fuel r
    | none => scanFrom fuel rest

/-- All `"key" = "value";` matches of the file content, in text order. -/
def scanEntries (s : Str) : List (Str × Str) := scanFrom s.length s

/-- Parse a `.strings` file content into a translation map
(`parse_strings_file`, lines 32-53: `findall` then insert each pair in
order, so a later duplicate key overwrites an earlier one). -/
def parse_strings_file (content : Str) : TransMap :=
  (scanEntries content).foldl (fun d kv => ainsert kv.1 kv.2 d) []

/-! ### `get_translation_key` -/

/-- The primary candidate key `name_<lowercased identifier>`. -/
def nameKeyOf (identifier : Str) : Str := "name_".data ++ lowerStr identifier

/-- The fallback candidate key `title_<lowercased identifier>_01`. -/
def titleKeyOf (identifier : Str) : Str :=
  "title_".data ++ lowerStr identifier ++ "_01".data

/-- Resolve the translation key for an identifier against a translation map
(`get_translation_key`, lines 55-74).  Returns the pair
`(翻译键, actually used key)`; both components are always equal. -/
def get_translation_key (identifier : Str) (translations : TransMap) : Str × Str :=
  let name_key := nameKeyOf identifier
  if amem name_key translations then (name_key, name_key)
  else
    let title_key := titleKeyOf identifier
    if amem title_key translations then (title_key, title_key)
    else ([], [])

/-! ### `read_existing_table` -/

/-- The header-search test of lines 94-97: the raw line starts with `|` and
contains the identifier-column header text. -/
def isHeaderLine (l : Str) : Bool := startsPipe l && hasInfix colId l

/-- `while len(cells) < len(headers): cells.append('')`. -/
def padTo (n : Nat) (cells : List Str) : List Str :=
  cells ++ List.replicate (n - cells.length) []

/-- Build one record from the header list and the (padded) cell list, as the
loop of lines 128-133 does: later duplicate headers overwrite earlier ones. -/
def recFromCells (headers cells : List Str) : Rec :=
  (headers.zip cells).foldl (fun r p => ainsert p.1 p.2 r) []

def dashDash : Str := ['-', '-']

/-- The data-row loop of lines 113-133: consume lines while they start with
`|` (after stripping), building the record table; on the first non-table
line stop and return it together with everything after it. -/
def readRows (headers : List Str) : List Str → Table → Table × List Str
  | [], acc => (acc, [])
  | l :: rest, acc =>
    let line := strip l
    if startsPipe line then
      let cells := ((stripPipe line).splitOn '|').map strip
      let acc2 :=
        if cells.length ≥ 1 ∧ cells.headD [] ≠ [] ∧ cells.headD [] ≠ dashDash then
          ainsert (cells.headD []) (recFromCells headers (padTo headers.length cells)) acc
        else acc
      readRows headers rest acc2
    else (acc, l :: rest)

/-- Read an existing Markdown table from the file content
(`read_existing_table`, lines 76-142): returns the header list, the record
table and the non-table content lines. -/
def read_existing_table (content : Str) : List Str × Table × List Str :=
  let lines := content.splitOn '\n'
  match lines.findIdx? isHeaderLine with
  | none => (defaultHeaders, [], lines)
  | some i =>
    let headers := ((stripPipe (strip (lines.getD i []))).splitOn '|').map strip
    let res := readRows headers (lines.drop (i + 2)) []
    (headers, res.1, lines.take i ++ res.2)

/-! ### `merge_table_data` -/

/-- `is_empty_or_whitespace`, lines 144-148. -/
def is_empty_or_whitespace (v : Str) : Bool := v = [] || strip v = []

/-- The three name/key values computed for one identifier in lines 171-180:
chinese name, english name, and the (possibly blanked) actual key. -/
def stepVals (cn en : TransMap) (identifier : Str) : Str × Str × Str :=
  let ak := (get_translation_key identifier en).2
  let chinese_name := if ak ≠ [] then agetD cn ak [] else []
  let english_name := if ak ≠ [] then agetD en ak [] else []
  if chinese_name = [] ∧ english_name = [] then (chinese_name, english_name, [])
  else (chinese_name, english_name, ak)

/-- One conditional update of lines 188-190 (and 192-194, 196-198): set
column `c` to `w` when the current value is empty or whitespace and `w` is
truthy (non-empty). -/
def fillCol (c w : Str) (e : Rec) : Rec :=
  if is_empty_or_whitespace (agetD e c []) ∧ w ≠ [] then ainsert c w e else e

/-- The empty-field backfill of lines 187-198 applied to one existing
record: fill 中文名, then 英文名, then 翻译键. -/
def backfillEntry (chinese_name english_name actual_key : Str) (entry : Rec) : Rec :=
  fillCol colKey actual_key (fillCol colEn english_name (fillCol colZh chinese_name entry))

/-- The fresh record built for a new identifier in lines 204-215. -/
def newRecord (identifier chinese_name english_name actual_key : Str) : Rec :=
  [(colId, identifier), (colZh, chinese_name), (colNick, []), (colEn, english_name),
   (colKey, actual_key), (colVer, []), (colGroup, []), (colShot, []), (colNote, [])]

/-- One iteration of the merge loop (lines 170-221) for one identifier. -/
def mergeStep (cn en : TransMap) (merged : Table) (identifier : Str) : Table :=
  let v := stepVals cn en identifier
  match alookup identifier merged with
  | some entry => ainsert identifier (backfillEntry v.1 v.2.1 v.2.2 entry) merged
  | none => merged ++ [(identifier, newRecord identifier v.1 v.2.1 v.2.2)]

/-- Merge the identifier list and translations into the existing table
(`merge_table_data`, lines 150-223): keep all existing records, iterate over
the sorted identifiers, backfilling empty name/key fields of existing
records and appending fresh records for new identifiers. -/
def merge_table_data (identifiers : List Str) (cn en : TransMap) (existing : Table) : Table :=
  (sortStrs identifiers).foldl (mergeStep cn en) existing

/-! ### `write_table` -/

/-- Cell rendering of lines 237 and 256: the stripped content, or a single
space when blank. -/
def renderCell (v : Str) : Str := if strip v = [] then [' '] else strip v

/-- Row rendering of lines 234-238 / 252-258: `'|'` followed by
`' <cell> |'` for each cell. -/
def renderRow (cells : List Str) : Str :=
  cells.foldl (fun acc c => acc ++ [' '] ++ c ++ [' ', '|']) ['|']

def nl : Str := ['\n']

/-- Python `text.endswith('\n')`: the last character is a newline. -/
def endsNl (s : Str) : Bool :=
  s.reverse.head? = some '\n'

/-- Python `text.endswith('\n\n')`: the last two characters are newlines. -/
def ends2Nl (s : Str) : Bool :=
  s.reverse.head? = some '\n' && (s.reverse.drop 1).head? = some '\n'

/-- The trailing-blank-line cleanup of lines 263-264. -/
def dropTrailingBlank (ls : List Str) : List Str :=
  (ls.reverse.dropWhile (fun l => strip l = [])).reverse

/-- The rendered table block: header row, separator row, then one row per
record in ascending identifier order. -/
def tableLines (headers : List Str) (data : Table) : List Str :=
  renderRow (headers.map renderCell)
    :: renderRow (headers.map (fun _ => "---".data))
    :: (sortStrs (akeys data)).map
        (fun k => renderRow (headers.map (fun h => renderCell (agetD (agetD data k []) h []))))

/-- Serialize the merged table (`write_table`, lines 225-296), returning the
full new file content. -/
def write_table (headers : List Str) (data : Table) (prose : List Str) : Str :=
  let cleaned := dropTrailingBlank prose
  let t0 := List.intercalate nl cleaned
  let t1 := if t0 ≠ [] ∧ endsNl t0 = false then t0 ++ nl else t0
  let t2 := if t1 ≠ [] ∧ ends2Nl t1 = false then
      (if endsNl t1 then t1 ++ nl else t1 ++ nl ++ nl) else t1
  if t2 ≠ [] then t2 ++ List.intercalate nl (tableLines headers data)
  else nl ++ List.intercalate nl (tableLines headers data)

/-! ### `main`

The filesystem is modelled as an association list from path to file content;
a path exists iff it is a key.  `main` returns the error message printed for
a missing input file (the file role name and the path, line 340) paired with
the resulting filesystem, which is unchanged in the error case and has the
table file overwritten on success (lines 303-377). -/

def roleTable : Str := "Dump表".data
def roleLevels : Str := "地图枚举文件".data
def roleChinese : Str := "中文翻译文件".data
def roleEnglish : Str := "原始翻译文件".data

def main (fs : List (Str × Str)) (table_path levels_path chinese_path english_path : Str) :
    Option (Str × Str) × List (Str × Str) :=
  if amem table_path fs = false then (some (roleTable, table_path), fs)
  else if amem levels_path fs = false then (some (roleLevels, levels_path), fs)
  else if amem chinese_path fs = false then (some (roleChinese, chinese_path), fs)
  else if amem english_path fs = false then (some (roleEnglish, english_path), fs)
  else
    let identifiers := parse_level_list (agetD fs levels_path [])
    let cn := parse_strings_file (agetD fs chinese_path [])
    let en := parse_strings_file (agetD fs english_path [])
    let r := read_existing_table (agetD fs table_path [])
    let merged := merge_table_data identifiers cn en r.2.1
    (none, ainsert table_path (write_table r.1 merged r.2.2) fs)

/-- The complete text-to-text transform of one successful run: read the
table content, merge, serialize. -/
def pipeline (identifiers : List Str) (cn en : TransMap) (content : Str) : Str :=
  let r := read_existing_table content
  write_table r.1 (merge_table_data identifiers cn en r.2.1) r.2.2

/-! ## Association-list lemmas -/

section AList

variable {α : Type} {k k2 : Str} {v v0 : α} {d d2 : List (Str × α)}

theorem alookup_ainsert_self (k : Str) (v : α) (d : List (Str × α)) :
    alookup k (ainsert k v d) = some v := by
  induction d with
  | nil => simp [ainsert, alookup]
  | cons p rest ih =>
    obtain ⟨k2, v2⟩ := p
    by_cases h : k2 = k
    · simp [ainsert, alookup, h]
    · simp [ainsert, alookup, h, ih]

theorem alookup_ainsert_ne (h : k2 ≠ k) (v : α) (d : List (Str × α)) :
    alookup k (ainsert k2 v d) = alookup k d := by
  induction d with
  | nil => simp [ainsert, alookup, h]
  | cons p rest ih =>
    obtain ⟨k3, v3⟩ := p
    by_cases h3 : k3 = k2
    · subst h3
      simp [ainsert, alookup, h]
    · by_cases h4 : k3 = k
      · subst h4
        simp [ainsert, alookup, h3, alookup, Ne.symm h]
      · simp [ainsert, alookup, h3, h4, ih]

theorem ainsert_lookup_self (h : alookup k d = some v) : ainsert k v d = d := by
  induction d with
  | nil => simp [alookup] at h
  | cons p rest ih =>
    obtain ⟨k2, v2⟩ := p
    by_cases h2 : k2 = k
    · simp [alookup, h2] at h
      simp [ainsert, h2, h]
    · simp [alookup, h2] at h
      simp [ainsert, h2, ih h]

theorem alookup_append (k : Str) (d d2 : List (Str × α)) :
    alookup k (d ++ d2) =
      match alookup k d with
      | some v => some v
      | none => alookup k d2 := by
  induction d with
  | nil => simp [alookup]
  | cons p rest ih =>
    obtain ⟨k2, v2⟩ := p
    by_cases h2 : k2 = k <;> simp [alookup, h2, ih]

theorem agetD_ainsert_self (k : Str) (v dflt : α) (d : List (Str × α)) :
    agetD (ainsert k v d) k dflt = v := by
  simp [agetD, alookup_ainsert_self]

theorem agetD_ainsert_ne (h : k2 ≠ k) (v frm : α) (d : List (Str × α)) :
    agetD (ainsert k2 v d) k frm = agetD d k frm := by
  simp [agetD, alookup_ainsert_ne h]

theorem akeys_ainsert_absent (h : alookup k d = none) (v : α) :
    akeys (ainsert k v d) = akeys d ++ [k] := by
  induction d with
  | nil => simp [ainsert, akeys]
  | cons p rest ih =>
    obtain ⟨k2, v2⟩ := p
    by_cases h2 : k2 = k
    · simp [alookup, h2] at h
    · simp [alookup, h2] at h
      simp [ainsert, akeys, h2] at ih ⊢
      exact ih h

theorem akeys_ainsert_present (h : alookup k d = some v0) (v : α) :
    akeys (ainsert k v d) = akeys d := by
  induction d with
  | nil => simp [alookup] at h
  | cons p rest ih =>
    obtain ⟨k2, v2⟩ := p
    by_cases h2 : k2 = k
    · simp [ainsert, akeys, h2]
    · simp [alookup, h2] at h
      simp [ainsert, akeys, h2] at ih ⊢
      exact ih h

theorem alookup_cons {v2 : α} :
    alookup k ((k2, v2) :: d) = if k2 = k then some v2 else alookup k d := rfl

theorem akeys_cons {p : Str × α} : akeys (p :: d) = p.1 :: akeys d := rfl

theorem alookup_none_of_not_mem_akeys (h : k ∉ akeys d) : alookup k d = none := by
  induction d with
  | nil => rfl
  | cons p rest ih =>
    obtain ⟨k2, v2⟩ := p
    rw [akeys_cons, List.mem_cons] at h
    push_neg at h
    rw [alookup_cons, if_neg (fun e => h.1 e.symm), ih h.2]

theorem mem_akeys_of_alookup (h : alookup k d = some v) : k ∈ akeys d := by
  induction d with
  | nil => simp [alookup] at h
  | cons p rest ih =>
    obtain ⟨k2, v2⟩ := p
    rw [alookup_cons] at h
    rw [akeys_cons, List.mem_cons]
    by_cases h2 : k2 = k
    · exact Or.inl h2.symm
    · rw [if_neg h2] at h
      exact Or.inr (ih h)

theorem alookup_isSome_of_mem_akeys (h : k ∈ akeys d) : (alookup k d).isSome := by
  induction d with
  | nil => simp [akeys] at h
  | cons p rest ih =>
    obtain ⟨k2, v2⟩ := p
    rw [akeys_cons, List.mem_cons] at h
    rw [alookup_cons]
    by_cases h2 : k2 = k
    · rw [if_pos h2]
      rfl
    · rw [if_neg h2]
      exact ih (h.resolve_left fun e => h2 e.symm)

end AList

/-! ## Emptiness and backfill lemmas -/

theorem is_empty_iff (v : Str) : is_empty_or_whitespace v = true ↔ strip v = [] := by
  constructor
  · intro h
    rcases Bool.or_eq_true_iff.mp h with h1 | h1
    · rw [decide_eq_true_iff] at h1
      rw [h1]
      rfl
    · exact decide_eq_true_iff.mp h1
  · intro h
    unfold is_empty_or_whitespace
    rw [Bool.or_eq_true_iff]
    exact Or.inr (decide_eq_true_iff.mpr h)

theorem is_empty_false_of_nonblank (h : strip v ≠ []) : is_empty_or_whitespace v = false := by
  rcases Bool.eq_false_or_eq_true (is_empty_or_whitespace v) with h1 | h1
  · exact absurd ((is_empty_iff v).mp h1) h
  · exact h1

theorem agetD_fillCol_ne (h : c2 ≠ c) (w : Str) (e : Rec) :
    agetD (fillCol c2 w e) c [] = agetD e c [] := by
  unfold fillCol
  split
  · exact agetD_ainsert_ne h w [] e
  · rfl

theorem agetD_fillCol_nonblank (h : strip (agetD e c []) ≠ []) (c2 w : Str) :
    agetD (fillCol c2 w e) c [] = agetD e c [] := by
  by_cases hc : c2 = c
  · subst hc
    unfold fillCol
    rw [if_neg]
    intro hcond
    exact h ((is_empty_iff _).mp hcond.1)
  · exact agetD_fillCol_ne hc w e

theorem agetD_backfill_ne (hzh : c ≠ colZh) (hen : c ≠ colEn) (hkey : c ≠ colKey)
    (a b k2 : Str) (e : Rec) :
    agetD (backfillEntry a b k2 e) c [] = agetD e c [] := by
  unfold backfillEntry
  rw [agetD_fillCol_ne (Ne.symm hkey), agetD_fillCol_ne (Ne.symm hen),
    agetD_fillCol_ne (Ne.symm hzh)]

theorem agetD_backfill_nonblank (h : strip (agetD e c []) ≠ []) (a b k2 : Str) :
    agetD (backfillEntry a b k2 e) c [] = agetD e c [] := by
  unfold backfillEntry
  rw [agetD_fillCol_nonblank, agetD_fillCol_nonblank, agetD_fillCol_nonblank h]
  · rw [agetD_fillCol_nonblank h]
    exact h
  · rw [agetD_fillCol_nonblank, agetD_fillCol_nonblank h]
    · exact h
    · rw [agetD_fillCol_nonblank h]
      exact h

/-! ## Merge-step lemmas -/

theorem alookup_mergeStep_ne {ident k : Str} (h : ident ≠ k) (cn en : TransMap) (T : Table) :
    alookup k (mergeStep cn en T ident) = alookup k T := by
  unfold mergeStep
  cases hl : alookup ident T with
  | some e =>
    dsimp only
    rw [alookup_ainsert_ne h]
  | none =>
    dsimp only
    rw [alookup_append]
    cases hk : alookup k T with
    | some v => rfl
    | none => simp [alookup, h]

theorem mergeStep_present {ident : Str} {T : Table} {e : Rec}
    (h : alookup ident T = some e) (cn en : TransMap) :
    mergeStep cn en T ident =
      ainsert ident (backfillEntry (stepVals cn en ident).1 (stepVals cn en ident).2.1
        (stepVals cn en ident).2.2 e) T := by
  unfold mergeStep
  rw [h]

theorem mergeStep_absent {ident : Str} {T : Table}
    (h : alookup ident T = none) (cn en : TransMap) :
    mergeStep cn en T ident =
      T ++ [(ident, newRecord ident (stepVals cn en ident).1 (stepVals cn en ident).2.1
        (stepVals cn en ident).2.2)] := by
  unfold mergeStep
  rw [h]

/-! ## Merge-fold lemmas -/

/-- A non-blank cell of a present record survives the whole merge loop
untouched. -/
theorem foldl_mergeStep_nonblank (cn en : TransMap) (l : List Str) :
    ∀ (T : Table) (k c : Str) (r : Rec), alookup k T = some r →
    strip (agetD r c []) ≠ [] →
    ∃ r2, alookup k (l.foldl (mergeStep cn en) T) = some r2 ∧
      agetD r2 c [] = agetD r c [] := by
  induction l with
  | nil => exact fun T k c r h _ => ⟨r, h, rfl⟩
  | cons a rest ih =>
    intro T k c r h hnb
    rw [List.foldl_cons]
    by_cases ha : a = k
    · subst ha
      rw [mergeStep_present h cn en]
      have hval : agetD (backfillEntry (stepVals cn en a).1 (stepVals cn en a).2.1
          (stepVals cn en a).2.2 r) c [] = agetD r c [] := agetD_backfill_nonblank hnb _ _ _
      obtain ⟨r2, hr2, hv2⟩ := ih _ a c _ (alookup_ainsert_self a _ T)
        (by rw [hval]; exact hnb)
      exact ⟨r2, hr2, by rw [hv2, hval]⟩
    · exact ih _ k c r (by rw [alookup_mergeStep_ne ha]; exact h) hnb

/-- Columns other than 中文名, 英文名, 翻译键 of a present record survive the
whole merge loop untouched, blank or not. -/
theorem foldl_mergeStep_frame (cn en : TransMap) (l : List Str) :
    ∀ (T : Table) (k : Str) (r : Rec), alookup k T = some r →
    ∃ r2, alookup k (l.foldl (mergeStep cn en) T) = some r2 ∧
      ∀ c, c ≠ colZh → c ≠ colEn → c ≠ colKey → agetD r2 c [] = agetD r c [] := by
  induction l with
  | nil => exact fun T k r h => ⟨r, h, fun _ _ _ _ => rfl⟩
  | cons a rest ih =>
    intro T k r h
    rw [List.foldl_cons]
    by_cases ha : a = k
    · subst ha
      rw [mergeStep_present h cn en]
      obtain ⟨r2, hr2, hv2⟩ := ih _ a _ (alookup_ainsert_self a _ T)
      refine ⟨r2, hr2, fun c h1 h2 h3 => ?_⟩
      rw [hv2 c h1 h2 h3, agetD_backfill_ne h1 h2 h3]
    · exact ih _ k r (by rw [alookup_mergeStep_ne ha]; exact h)

/-- `fillCol` never changes a record whose current value at the column is
already the fill value. -/
theorem fillCol_self {c w : Str} {e : Rec} (h : alookup c e = some w) :
    fillCol c w e = e := by
  unfold fillCol
  split
  · exact ainsert_lookup_self h
  · rfl

theorem alookup_newRecord_zh (i a b k : Str) :
    alookup colZh (newRecord i a b k) = some a := by
  simp [newRecord, alookup, colId, colZh]

theorem alookup_newRecord_en (i a b k : Str) :
    alookup colEn (newRecord i a b k) = some b := by
  simp [newRecord, alookup, colId, colZh, colNick, colEn]

theorem alookup_newRecord_key (i a b k : Str) :
    alookup colKey (newRecord i a b k) = some k := by
  simp [newRecord, alookup, colId, colZh, colNick, colEn, colKey]

/-- Re-backfilling a fresh record with the very values it was built from is a
no-op. -/
theorem backfill_newRecord_self (ident v1 v2 v3 : Str) :
    backfillEntry v1 v2 v3 (newRecord ident v1 v2 v3) = newRecord ident v1 v2 v3 := by
  unfold backfillEntry
  rw [fillCol_self (alookup_newRecord_zh ident v1 v2 v3),
    fillCol_self (alookup_newRecord_en ident v1 v2 v3),
    fillCol_self (alookup_newRecord_key ident v1 v2 v3)]

/-- Once an identifier maps to its fresh record, the rest of the merge loop
leaves that record literally unchanged. -/
theorem foldl_mergeStep_newRecord_stable (cn en : TransMap) (l : List Str) :
    ∀ (T : Table) (ident : Str),
    alookup ident T = some (newRecord ident (stepVals cn en ident).1
      (stepVals cn en ident).2.1 (stepVals cn en ident).2.2) →
    alookup ident (l.foldl (mergeStep cn en) T) =
      some (newRecord ident (stepVals cn en ident).1
        (stepVals cn en ident).2.1 (stepVals cn en ident).2.2) := by
  induction l with
  | nil => exact fun T ident h => h
  | cons a rest ih =>
    intro T ident h
    rw [List.foldl_cons]
    by_cases ha : a = ident
    · subst ha
      rw [mergeStep_present h cn en, backfill_newRecord_self, ainsert_lookup_self h]
      exact ih T a h
    · exact ih _ ident (by rw [alookup_mergeStep_ne ha]; exact h)

/-- Processing a list containing an absent identifier creates exactly the
fresh record for it. -/
theorem foldl_mergeStep_creates (cn en : TransMap) (l : List Str) :
    ∀ (T : Table) (ident : Str), ident ∈ l → alookup ident T = none →
    alookup ident (l.foldl (mergeStep cn en) T) =
      some (newRecord ident (stepVals cn en ident).1
        (stepVals cn en ident).2.1 (stepVals cn en ident).2.2) := by
  induction l with
  | nil => intro T ident hmem; exact absurd hmem (List.not_mem_nil ident)
  | cons a rest ih =>
    intro T ident hmem habs
    rw [List.foldl_cons]
    by_cases ha : a = ident
    · subst ha
      rw [mergeStep_absent habs cn en]
      refine foldl_mergeStep_newRecord_stable cn en rest _ a ?_
      rw [alookup_append, habs]
      simp [alookup]
    · refine ih _ ident ?_ (by rw [alookup_mergeStep_ne ha]; exact habs)
      rcases List.mem_cons.mp hmem with h1 | h1
      · exact absurd h1.symm ha
      · exact h1

/-- A new identifier of the identifier list ends up mapped to exactly the
fresh record built from the resolved translations. -/
theorem merge_creates (identifiers : List Str) (cn en : TransMap) (existing : Table)
    (ident : Str) (hmem : ident ∈ identifiers) (habs : alookup ident existing = none) :
    alookup ident (merge_table_data identifiers cn en existing) =
      some (newRecord ident (stepVals cn en ident).1
        (stepVals cn en ident).2.1 (stepVals cn en ident).2.2) := by
  unfold merge_table_data
  refine foldl_mergeStep_creates cn en (sortStrs identifiers) existing ident ?_ habs
  unfold sortStrs
  exact (List.perm_insertionSort _ identifiers).mem_iff.mpr hmem

/-! ## Key-resolution lemmas -/

theorem get_translation_key_name (en : TransMap) (ident : Str)
    (hen : amem (nameKeyOf ident) en = true) :
    get_translation_key ident en = (nameKeyOf ident, nameKeyOf ident) := by
  unfold get_translation_key
  simp [hen]

theorem get_translation_key_none (en : TransMap) (ident : Str)
    (h1 : amem (nameKeyOf ident) en = false) (h2 : amem (titleKeyOf ident) en = false) :
    get_translation_key ident en = ([], []) := by
  unfold get_translation_key
  simp [h1, h2]

theorem stepVals_none (cn en : TransMap) (ident : Str)
    (h1 : amem (nameKeyOf ident) en = false) (h2 : amem (titleKeyOf ident) en = false) :
    stepVals cn en ident = ([], [], []) := by
  unfold stepVals
  rw [get_translation_key_none en ident h1 h2]
  simp

theorem nameKeyOf_ne_nil (ident : Str) : nameKeyOf ident ≠ [] := by
  unfold nameKeyOf
  intro h
  exact absurd (List.append_eq_nil.mp h).1 (by decide)

theorem stepVals_name_key (cn en : TransMap) (ident : Str)
    (hen : amem (nameKeyOf ident) en = true) :
    stepVals cn en ident =
      (agetD cn (nameKeyOf ident) [], agetD en (nameKeyOf ident) [],
        if agetD cn (nameKeyOf ident) [] = [] ∧ agetD en (nameKeyOf ident) [] = []
        then [] else nameKeyOf ident) := by
  unfold stepVals
  rw [get_translation_key_name en ident hen]
  simp only [nameKeyOf_ne_nil, ne_eq, not_false_iff, if_true]
  by_cases h : agetD cn (nameKeyOf ident) [] = [] ∧ agetD en (nameKeyOf ident) [] = []
  · rw [if_pos h, if_pos h]
  · rw [if_neg h, if_neg h]

theorem agetD_newRecord_zh (i a b k : Str) : agetD (newRecord i a b k) colZh [] = a := by
  simp [agetD, alookup_newRecord_zh]

theorem agetD_newRecord_en (i a b k : Str) : agetD (newRecord i a b k) colEn [] = b := by
  simp [agetD, alookup_newRecord_en]

theorem agetD_newRecord_key (i a b k : Str) : agetD (newRecord i a b k) colKey [] = k := by
  simp [agetD, alookup_newRecord_key]

/-! ## Claim C1 -/

/-- Claim C1 (confirmed): for every pre-existing record and every column, a
cell value that is non-empty (not empty and not whitespace-only) before the
merge is unchanged by `merge_table_data`; only blank cells can receive a new
value. -/
theorem C1_merge_preserves_nonempty_cells (identifiers : List Str) (cn en : TransMap)
    (existing : Table) (k c : Str) (r : Rec)
    (hk : alookup k existing = some r) (hnb : strip (agetD r c []) ≠ []) :
    ∃ r2, alookup k (merge_table_data identifiers cn en existing) = some r2 ∧
      agetD r2 c [] = agetD r c [] :=
  foldl_mergeStep_nonblank cn en (sortStrs identifiers) existing k c r hk hnb

/-- Witness for C1 at a concrete input. -/
theorem C1_witness :
    ∃ r2, alookup "A".data (merge_table_data ["A".data]
        [("name_a".data, "x2".data)] [("name_a".data, "y2".data)]
        [("A".data, [(colZh, "x".data)])]) = some r2 ∧
      agetD r2 colZh [] = agetD [(colZh, "x".data)] colZh [] :=
  C1_merge_preserves_nonempty_cells ["A".data] [("name_a".data, "x2".data)]
    [("name_a".data, "y2".data)] [("A".data, [(colZh, "x".data)])]
    "A".data colZh [(colZh, "x".data)] (by decide) (by decide)

/-! ## Claim C2 -/

/-- Claim C2 (confirmed): for every identifier already present in the
existing table, the merge can change only the 中文名, 英文名 and 翻译键
columns; every other column keeps its original value even when empty, and
the identifier is still a key of the merged record set (no record is
deleted). -/
theorem C2_merge_frame (identifiers : List Str) (cn en : TransMap)
    (existing : Table) (k : Str) (r : Rec) (hk : alookup k existing = some r) :
    ∃ r2, alookup k (merge_table_data identifiers cn en existing) = some r2 ∧
      ∀ c, c ≠ colZh → c ≠ colEn → c ≠ colKey → agetD r2 c [] = agetD r c [] :=
  foldl_mergeStep_frame cn en (sortStrs identifiers) existing k r hk

/-- Witness for C2 at a concrete input. -/
theorem C2_witness :
    ∃ r2, alookup "A".data (merge_table_data ["A".data]
        [("name_a".data, "x2".data)] [("name_a".data, "y2".data)]
        [("A".data, [(colVer, "0.1".data)])]) = some r2 ∧
      ∀ c, c ≠ colZh → c ≠ colEn → c ≠ colKey →
        agetD r2 c [] = agetD [(colVer, "0.1".data)] c [] :=
  C2_merge_frame ["A".data] [("name_a".data, "x2".data)] [("name_a".data, "y2".data)]
    [("A".data, [(colVer, "0.1".data)])] "A".data [(colVer, "0.1".data)] (by decide)

/-! ## Claim C3 -/

/-- Counterexample to C3 as stated: "Day" is new, the primary (Chinese)
translation file contains `"name_day" = "白日";`, yet the merged record's
中文名 column is empty, because key resolution consults only the secondary
(English) translation map, which is empty here. -/
theorem C3_counterexample :
    alookup "Day".data (merge_table_data ["Day".data]
        [("name_day".data, "白日".data)] [] []) =
      some (newRecord "Day".data [] [] []) ∧
    agetD (newRecord "Day".data [] [] []) colZh [] ≠ "白日".data := by
  constructor
  · decide
  · decide

/-- Claim C3 (corrected): for the new identifier "Day", if the primary
(Chinese) translation map contains `"name_day" = "白日";` and the key
`name_day` additionally occurs in the secondary (English) translation map —
which key resolution consults — then the merged record for "Day" has 白日 in
the 中文名 column. -/
theorem C3_amended (identifiers : List Str) (cn en : TransMap) (existing : Table)
    (hmem : "Day".data ∈ identifiers)
    (habs : alookup "Day".data existing = none)
    (hcn : alookup "name_day".data cn = some "白日".data)
    (hen : amem "name_day".data en = true) :
    ∃ r, alookup "Day".data (merge_table_data identifiers cn en existing) = some r ∧
      agetD r colZh [] = "白日".data := by
  have hkey : nameKeyOf "Day".data = "name_day".data := by decide
  have hc := merge_creates identifiers cn en existing "Day".data hmem habs
  rw [stepVals_name_key cn en "Day".data (by rw [hkey]; exact hen)] at hc
  refine ⟨_, hc, ?_⟩
  rw [agetD_newRecord_zh, hkey]
  simp [agetD, hcn]

/-- Witness for the corrected C3 at a concrete input. -/
theorem C3_witness :
    ∃ r, alookup "Day".data (merge_table_data ["Day".data]
        [("name_day".data, "白日".data)] [("name_day".data, "Daylight".data)] []) = some r ∧
      agetD r colZh [] = "白日".data :=
  C3_amended ["Day".data] [("name_day".data, "白日".data)]
    [("name_day".data, "Daylight".data)] [] (by decide) (by decide) (by decide) (by decide)

/-! ## Claim C5 -/

/-- Claim C5 (confirmed): a new identifier for which neither
`name_<lowercase>` nor `title_<lowercase>_01` occurs in either translation
map gets the empty string in the 中文名, 英文名 and 翻译键 columns of its
fresh record. -/
theorem C5_unresolved_names_empty (identifiers : List Str) (cn en : TransMap)
    (existing : Table) (ident : Str)
    (hmem : ident ∈ identifiers) (habs : alookup ident existing = none)
    (hcn1 : amem (nameKeyOf ident) cn = false) (hcn2 : amem (titleKeyOf ident) cn = false)
    (hen1 : amem (nameKeyOf ident) en = false) (hen2 : amem (titleKeyOf ident) en = false) :
    ∃ r, alookup ident (merge_table_data identifiers cn en existing) = some r ∧
      agetD r colZh [] = [] ∧ agetD r colEn [] = [] ∧ agetD r colKey [] = [] := by
  have hc := merge_creates identifiers cn en existing ident hmem habs
  rw [stepVals_none cn en ident hen1 hen2] at hc
  exact ⟨_, hc, agetD_newRecord_zh _ _ _ _, agetD_newRecord_en _ _ _ _,
    agetD_newRecord_key _ _ _ _⟩

/-- Witness for C5 at a concrete input. -/
theorem C5_witness :
    ∃ r, alookup "Day".data (merge_table_data ["Day".data]
        [("other".data, "x".data)] [("other2".data, "y".data)] []) = some r ∧
      agetD r colZh [] = [] ∧ agetD r colEn [] = [] ∧ agetD r colKey [] = [] :=
  C5_unresolved_names_empty ["Day".data] [("other".data, "x".data)]
    [("other2".data, "y".data)] [] "Day".data (by decide) (by decide)
    (by decide) (by decide) (by decide) (by decide)

/-! ## Claim C7 -/

/-- Counterexample to C7 as stated: for the new identifier "Day" the key
`name_day` resolves (it occurs in the secondary translation map), yet the
record's 翻译键 column is empty, because both looked-up translations are the
empty string and lines 177-180 then blank the key. -/
theorem C7_counterexample :
    amem (nameKeyOf "Day".data) ([("name_day".data, ([] : Str))] : TransMap) = true ∧
    alookup "Day".data (merge_table_data ["Day".data]
        ([] : TransMap) ([("name_day".data, ([] : Str))] : TransMap) ([] : Table)) =
      some (newRecord "Day".data [] [] []) ∧
    agetD (newRecord "Day".data [] [] []) colKey [] = [] := by
  refine ⟨by decide, by decide, by decide⟩

/-- Claim C7 (corrected): for every new identifier, the fresh record's 翻译键
column equals the resolved key exactly when resolution succeeds and at least
one of the two translation lookups at that key is non-empty; it is the empty
string when neither candidate key exists or when both lookups are empty. -/
theorem C7_amended (identifiers : List Str) (cn en : TransMap) (existing : Table)
    (ident : Str) (hmem : ident ∈ identifiers) (habs : alookup ident existing = none) :
    ∃ r, alookup ident (merge_table_data identifiers cn en existing) = some r ∧
      agetD r colKey [] =
        (if (get_translation_key ident en).2 ≠ [] ∧
            (agetD cn (get_translation_key ident en).2 [] ≠ [] ∨
              agetD en (get_translation_key ident en).2 [] ≠ []) then
          (get_translation_key ident en).2
        else []) := by
  have hc := merge_creates identifiers cn en existing ident hmem habs
  refine ⟨_, hc, ?_⟩
  rw [agetD_newRecord_key]
  unfold stepVals
  by_cases hak : (get_translation_key ident en).2 = []
  · simp [hak]
  · by_cases hboth : agetD cn (get_translation_key ident en).2 [] = [] ∧
        agetD en (get_translation_key ident en).2 [] = []
    · simp [hak, hboth]
    · push_neg at hboth
      by_cases hcn : agetD cn (get_translation_key ident en).2 [] = []
      · simp [hak, hcn, hboth hcn]
      · simp [hak, hcn]

/-- Witness for the corrected C7 at a concrete input. -/
theorem C7_witness :
    ∃ r, alookup "Day".data (merge_table_data ["Day".data]
        ([] : TransMap) [("name_day".data, "Daylight".data)] ([] : Table)) = some r ∧
      agetD r colKey [] =
        (if (get_translation_key "Day".data [("name_day".data, "Daylight".data)]).2 ≠ [] ∧
            (agetD ([] : TransMap)
                (get_translation_key "Day".data [("name_day".data, "Daylight".data)]).2 [] ≠ [] ∨
              agetD [("name_day".data, "Daylight".data)]
                (get_translation_key "Day".data [("name_day".data, "Daylight".data)]).2 [] ≠ []) then
          (get_translation_key "Day".data [("name_day".data, "Daylight".data)]).2
        else []) :=
  C7_amended ["Day".data] ([] : TransMap) [("name_day".data, "Daylight".data)] ([] : Table)
    "Day".data (by decide) (by decide)

/-! ## Claim C8 -/

/-- Claim C8 (confirmed): when no line of the input both starts with `|` and
contains the identifier-column header text, the table reader returns the
fixed 9-column default header, an empty record set, and the entire input as
leading prose. -/
theorem C8_no_header_defaults (content : Str)
    (h : ∀ l ∈ content.splitOn '\n', isHeaderLine l = false) :
    read_existing_table content = (defaultHeaders, [], content.splitOn '\n') := by
  have hnone : (content.splitOn '\n').findIdx? isHeaderLine = none :=
    List.findIdx?_eq_none_iff.mpr h
  simp only [read_existing_table]
  rw [hnone]

/-- Witness for C8 at a concrete input. -/
theorem C8_witness :
    read_existing_table "hello\n| a |\nworld 标识符".data =
      (defaultHeaders, [], ("hello\n| a |\nworld 标识符".data : Str).splitOn '\n') :=
  C8_no_header_defaults "hello\n| a |\nworld 标识符".data (by decide)

/-! ## Claim C9 -/

/-- Folding `ainsert` over a match list gives, for each key, the value of
the last matching entry (the first one of the reversed list). -/
theorem alookup_foldl_ainsert (ms : List (Str × Str)) (d : TransMap) (k : Str) :
    alookup k (ms.foldl (fun d2 kv => ainsert kv.1 kv.2 d2) d) =
      match alookup k ms.reverse with
      | some v => some v
      | none => alookup k d := by
  induction ms using List.reverseRecOn with
  | nil => simp [alookup]
  | append_singleton ms e ih =>
    obtain ⟨k1, v1⟩ := e
    rw [List.foldl_append, List.foldl_cons, List.foldl_nil, List.reverse_append]
    simp only [List.reverse_cons, List.reverse_nil, List.nil_append, List.singleton_append]
    by_cases he : k1 = k
    · subst he
      rw [alookup_ainsert_self, alookup_cons, if_pos rfl]
    · rw [alookup_ainsert_ne he, alookup_cons, if_neg he, ih]

/-- Claim C9 (confirmed): when the same key occurs in more than one
`"key" = "value";` entry of a translation file, the parser maps that key to
the value of the last matching entry in text order. -/
theorem C9_last_match_wins (content : Str) (k : Str)
    (hdup : 1 < ((scanEntries content).filter (fun e => e.1 = k)).length) :
    ∃ v, alookup k ((scanEntries content).reverse) = some v ∧
      alookup k (parse_strings_file content) = some v := by
  have hne : ((scanEntries content).filter (fun e => decide (e.1 = k))) ≠ [] := by
    intro h0
    rw [h0] at hdup
    simp at hdup
  obtain ⟨e, he⟩ := List.exists_mem_of_ne_nil _ hne
  have he2 := List.mem_filter.mp he
  have hk : e.1 = k := of_decide_eq_true he2.2
  have hmem : k ∈ akeys ((scanEntries content).reverse) := by
    rw [← hk]
    exact List.mem_map_of_mem Prod.fst (List.mem_reverse.mpr he2.1)
  obtain ⟨v, hv⟩ := Option.isSome_iff_exists.mp (alookup_isSome_of_mem_akeys hmem)
  refine ⟨v, hv, ?_⟩
  unfold parse_strings_file
  rw [alookup_foldl_ainsert, hv]

/-- Witness for C9 at a concrete input with a duplicated key. -/
theorem C9_witness :
    ∃ v, alookup "k".data ((scanEntries "\"k\" = \"v1\"; \"k\" = \"v2\";".data).reverse) = some v ∧
      alookup "k".data (parse_strings_file "\"k\" = \"v1\"; \"k\" = \"v2\";".data) = some v :=
  C9_last_match_wins "\"k\" = \"v1\"; \"k\" = \"v2\";".data "k".data (by decide)

/-! ## Claim C6 -/

/-- Claim C6 (confirmed): when any of the four input paths is missing from
the filesystem, `main` reports an error naming that file and its role and
terminates with the filesystem (in particular the table file) unmodified,
before any read, merge or write happens. -/
theorem C6_missing_input_aborts (fs : List (Str × Str)) (tp lp cp ep : Str)
    (h : amem tp fs = false ∨ amem lp fs = false ∨ amem cp fs = false ∨ amem ep fs = false) :
    ∃ role path, main fs tp lp cp ep = (some (role, path), fs) ∧ amem path fs = false ∧
      (role, path) ∈ [(roleTable, tp), (roleLevels, lp), (roleChinese, cp),
        (roleEnglish, ep)] := by
  unfold main
  by_cases h1 : amem tp fs = false
  · exact ⟨roleTable, tp, by rw [if_pos h1], h1, by simp⟩
  · rw [if_neg h1]
    by_cases h2 : amem lp fs = false
    · exact ⟨roleLevels, lp, by rw [if_pos h2], h2, by simp⟩
    · rw [if_neg h2]
      by_cases h3 : amem cp fs = false
      · exact ⟨roleChinese, cp, by rw [if_pos h3], h3, by simp⟩
      · rw [if_neg h3]
        by_cases h4 : amem ep fs = false
        · exact ⟨roleEnglish, ep, by rw [if_pos h4], h4, by simp⟩
        · rcases h with h | h | h | h
          · exact absurd h h1
          · exact absurd h h2
          · exact absurd h h3
          · exact absurd h h4

/-- Witness for C6 at a concrete input. -/
theorem C6_witness :
    ∃ role path, main [] "a".data "b".data "c".data "d".data = (some (role, path), []) ∧
      amem path ([] : List (Str × Str)) = false ∧
      (role, path) ∈ [(roleTable, "a".data), (roleLevels, "b".data),
        (roleChinese, "c".data), (roleEnglish, "d".data)] :=
  C6_missing_input_aborts [] "a".data "b".data "c".data "d".data (Or.inl (by decide))

/-! ## Intercalate and prose-shape lemmas -/

theorem intercalate_one (s a : Str) : List.intercalate s [a] = a := by
  simp [List.intercalate]

theorem intercalate_cons2 (s a b : Str) (l : List Str) :
    List.intercalate s (a :: b :: l) = a ++ s ++ List.intercalate s (b :: l) := by
  simp [List.intercalate, List.intersperse_cons_cons]

theorem intercalate_getLast_suffix {s : Str} (l : List Str) :
    ∀ x, l.getLast? = some x → ∃ pre, List.intercalate s l = pre ++ x := by
  induction l with
  | nil => intro x h; simp at h
  | cons a rest ih =>
    intro x h
    cases rest with
    | nil =>
      simp at h
      exact ⟨[], by rw [intercalate_one, h, List.nil_append]⟩
    | cons b rest2 =>
      rw [List.getLast?_cons_cons] at h
      obtain ⟨pre2, hp⟩ := ih x h
      exact ⟨a ++ s ++ pre2, by rw [intercalate_cons2, hp]; simp [List.append_assoc]⟩

theorem mem_dropWhile_of_not (p : α → Bool) (l : List α) (x : α)
    (hx : x ∈ l) (hnp : p x = false) : x ∈ l.dropWhile p := by
  induction l with
  | nil => simp at hx
  | cons a rest ih =>
    by_cases ha : p a = true
    · rw [List.dropWhile_cons_of_pos ha]
      rcases List.mem_cons.mp hx with h1 | h1
      · subst h1
        rw [hnp] at ha
        exact absurd ha (by simp)
      · exact ih h1
    · rw [List.dropWhile_cons_of_neg ha]
      exact hx

theorem mem_dropTrailingBlank (ls : List Str) (l : Str)
    (hl : l ∈ ls) (hnb : strip l ≠ []) : l ∈ dropTrailingBlank ls := by
  unfold dropTrailingBlank
  rw [List.mem_reverse]
  exact mem_dropWhile_of_not _ _ _ (List.mem_reverse.mpr hl) (by simp [hnb])

theorem endsNl_append_nl (s : Str) : endsNl (s ++ nl) = true := by
  unfold endsNl nl
  rw [List.reverse_append]
  rfl

/-- The newline-glue normalization of lines 266-289, for an arbitrary prose
text `t0` and table text `T`. -/
theorem write_glue (t0 T : Str) :
    ∃ glue,
      (let t1 := if t0 ≠ [] ∧ endsNl t0 = false then t0 ++ nl else t0
       let t2 := if t1 ≠ [] ∧ ends2Nl t1 = false then
           (if endsNl t1 then t1 ++ nl else t1 ++ nl ++ nl) else t1
       if t2 ≠ [] then t2 ++ T else nl ++ T) = t0 ++ glue ++ T := by
  by_cases h0 : t0 = []
  · subst h0
    exact ⟨nl, by simp⟩
  · cases hE : endsNl t0 with
    | true =>
      cases h2 : ends2Nl t0 with
      | true => exact ⟨[], by simp [h0, hE, h2]⟩
      | false => exact ⟨nl, by simp [h0, hE, h2, List.append_assoc]⟩
    | false =>
      cases h2 : ends2Nl (t0 ++ nl) with
      | true => exact ⟨nl, by simp [h0, hE, h2, List.append_assoc]⟩
      | false =>
        exact ⟨nl ++ nl, by simp [h0, hE, h2, endsNl_append_nl, List.append_assoc]⟩

/-- The shape of every `write_table` output: the joined cleaned prose, some
newline glue, then the joined table block. -/
theorem write_table_shape (headers : List Str) (data : Table) (prose : List Str) :
    ∃ glue, write_table headers data prose =
      List.intercalate nl (dropTrailingBlank prose) ++ glue ++
        List.intercalate nl (tableLines headers data) :=
  write_glue (List.intercalate nl (dropTrailingBlank prose))
    (List.intercalate nl (tableLines headers data))

/-! ## String-trimming lemmas (toward claim C4) -/

theorem head_dropWhile_false (p : α → Bool) (l : List α) :
    ∀ x, (l.dropWhile p).head? = some x → p x = false := by
  induction l with
  | nil => intro x h; simp at h
  | cons a rest ih =>
    intro x h
    by_cases ha : p a = true
    · rw [List.dropWhile_cons_of_pos ha] at h
      exact ih x h
    · rw [List.dropWhile_cons_of_neg ha] at h
      simp at h
      subst h
      exact Bool.eq_false_iff.mpr ha

theorem dropWhile_exists_prefix (p : α → Bool) (l : List α) :
    ∃ pre, l = pre ++ l.dropWhile p := by
  induction l with
  | nil => exact ⟨[], rfl⟩
  | cons a rest ih =>
    by_cases ha : p a = true
    · obtain ⟨pre, hp⟩ := ih
      exact ⟨a :: pre, by rw [List.dropWhile_cons_of_pos ha, List.cons_append, ← hp]⟩
    · exact ⟨[], by rw [List.dropWhile_cons_of_neg ha, List.nil_append]⟩

/-- `stripR`-style view: `strip s` is `stripL s` with a whitespace suffix
removed. -/
theorem strip_eq (s : Str) :
    strip s = ((s.dropWhile pyWs).reverse.dropWhile pyWs).reverse := rfl

theorem strip_head_not_ws (s : Str) : ∀ x, (strip s).head? = some x → pyWs x = false := by
  intro x hx
  rw [strip_eq] at hx
  obtain ⟨pre, hp⟩ := dropWhile_exists_prefix pyWs (s.dropWhile pyWs).reverse
  set t := (s.dropWhile pyWs).reverse.dropWhile pyWs with ht
  cases hc : t.reverse with
  | nil => rw [hc] at hx; simp at hx
  | cons b rest =>
    rw [hc] at hx
    simp at hx
    rw [← hx]
    -- the head of `t.reverse` is the head of `s.dropWhile pyWs`
    have h1 : (s.dropWhile pyWs).head? = some b := by
      have h2 : s.dropWhile pyWs = t.reverse ++ pre.reverse := by
        have := congrArg List.reverse hp
        rw [List.reverse_append, List.reverse_reverse] at this
        exact this
      rw [h2, hc]
      rfl
    exact head_dropWhile_false pyWs s b h1

theorem strip_last_not_ws (s : Str) : ∀ x, (strip s).getLast? = some x → pyWs x = false := by
  intro x hx
  rw [strip_eq, List.getLast?_reverse] at hx
  exact head_dropWhile_false pyWs _ x hx

/-- A string whose first and last characters are not whitespace is unchanged
by `strip`. -/
theorem strip_id (s : Str) (h1 : ∀ x, s.head? = some x → pyWs x = false)
    (h2 : ∀ x, s.getLast? = some x → pyWs x = false) : strip s = s := by
  have hL : s.dropWhile pyWs = s := by
    cases hs : s with
    | nil => rfl
    | cons a rest =>
      refine List.dropWhile_cons_of_neg ?_
      have := h1 a (by rw [hs]; rfl)
      simp [this]
  rw [strip_eq, hL]
  have hR : s.reverse.dropWhile pyWs = s.reverse := by
    cases hs : s.reverse with
    | nil => rfl
    | cons a rest =>
      refine List.dropWhile_cons_of_neg ?_
      have ha : s.getLast? = some a := by
        rw [← List.head?_reverse, hs]
        rfl
      have := h2 a ha
      simp [this]
  rw [hR, List.reverse_reverse]

theorem strip_idem (s : Str) : strip (strip s) = strip s :=
  strip_id (strip s) (strip_head_not_ws s) (strip_last_not_ws s)

theorem strip_nil : strip [] = [] := rfl

/-- `strip` only removes characters: membership in the stripped string
implies membership in the original. -/
theorem mem_strip_subset (s : Str) (x : Char) (h : x ∈ strip s) : x ∈ s := by
  rw [strip_eq] at h
  rw [List.mem_reverse] at h
  have h2 := List.dropWhile_sublist (l := (s.dropWhile pyWs).reverse) (p := pyWs)
  have h3 := h2.mem h
  rw [List.mem_reverse] at h3
  exact (List.dropWhile_sublist (l := s) (p := pyWs)).mem h3

theorem strip_cons_space (s : Str) : strip (' ' :: s) = strip s := by
  rw [strip_eq, strip_eq, List.dropWhile_cons_of_pos (by decide)]

theorem stripR_append_space (s : Str) :
    ((s ++ [' ']).reverse.dropWhile pyWs).reverse = (s.reverse.dropWhile pyWs).reverse := by
  rw [List.reverse_append]
  rfl

theorem strip_append_space (s : Str) : strip (s ++ [' ']) = strip s := by
  rw [strip_eq, strip_eq]
  by_cases h : s.dropWhile pyWs = []
  · have hL : List.dropWhile pyWs (s ++ [' ']) = [] := by
      rw [List.dropWhile_append, h]
      decide
    rw [hL, h]
  · have hL : List.dropWhile pyWs (s ++ [' ']) = List.dropWhile pyWs s ++ [' '] := by
      rw [List.dropWhile_append, if_neg (by simp [h])]
    rw [hL, List.reverse_append]
    rw [show ([' '] : Str).reverse ++ (List.dropWhile pyWs s).reverse =
      ' ' :: (List.dropWhile pyWs s).reverse from rfl]
    rw [List.dropWhile_cons_of_pos (by decide)]

/-- Stripping the padded cell `" c "` gives `strip c`. -/
theorem strip_pad (c : Str) : strip (' ' :: (c ++ [' '])) = strip c := by
  rw [strip_cons_space, strip_append_space]

/-- Stripping a rendered cell recovers the stripped value. -/
theorem strip_renderCell (v : Str) : strip (renderCell v) = strip v := by
  unfold renderCell
  by_cases h : strip v = []
  · rw [if_pos h, h]
    decide
  · rw [if_neg h, strip_idem]

/-! ## Row rendering and row parsing (toward claim C4) -/

/-- The padded cell text `" c "`. -/
def padCell (c : Str) : Str := ' ' :: (c ++ [' '])

theorem renderRow_foldl (acc : Str) (cells : List Str) :
    cells.foldl (fun a c => a ++ [' '] ++ c ++ [' ', '|']) acc =
      acc ++ (cells.map (fun c => padCell c ++ ['|'])).flatten := by
  induction cells generalizing acc with
  | nil => simp
  | cons c rest ih =>
    rw [List.foldl_cons, ih, List.map_cons, List.flatten_cons]
    simp [padCell, List.append_assoc]

theorem renderRow_eq (cells : List Str) :
    renderRow cells = '|' :: (cells.map (fun c => padCell c ++ ['|'])).flatten := by
  unfold renderRow
  rw [renderRow_foldl]
  rfl

theorem flatten_pad_eq_intercalate (c : Str) (cells : List Str) :
    ((c :: cells).map (fun x => padCell x ++ ['|'])).flatten =
      List.intercalate ['|'] ((c :: cells).map padCell) ++ ['|'] := by
  induction cells generalizing c with
  | nil => simp [intercalate_one]
  | cons c2 rest ih =>
    rw [List.map_cons, List.flatten_cons, ih c2]
    rw [show List.map padCell (c :: c2 :: rest) = padCell c :: padCell c2 :: List.map padCell rest
      from rfl, intercalate_cons2]
    simp [List.append_assoc]

theorem renderRow_eq_intercalate (c : Str) (cells : List Str) :
    renderRow (c :: cells) =
      '|' :: (List.intercalate ['|'] ((c :: cells).map padCell) ++ ['|']) := by
  rw [renderRow_eq, flatten_pad_eq_intercalate]

theorem padCell_ne_nil (c : Str) : padCell c ≠ [] := by
  simp [padCell]

theorem head_intercalate_pads (cells : List Str) (c : Str) :
    ∀ x, (List.intercalate ['|'] ((c :: cells).map padCell)).head? = some x → x = ' ' := by
  intro x hx
  cases cells with
  | nil =>
    rw [List.map_cons, List.map_nil, intercalate_one] at hx
    simp [padCell] at hx
    exact hx.symm
  | cons c2 rest =>
    rw [List.map_cons, List.map_cons, intercalate_cons2] at hx
    rw [List.append_assoc, List.head?_append] at hx
    simp [padCell] at hx
    exact hx.symm

theorem padCell_getLast (c : Str) : (padCell c).getLast? = some ' ' := by
  unfold padCell
  rw [show ' ' :: (c ++ [' ']) = (' ' :: c) ++ [' '] from rfl, List.getLast?_concat]

theorem last_intercalate_pads (cells : List Str) (c : Str) :
    ∀ x, (List.intercalate ['|'] ((c :: cells).map padCell)).getLast? = some x → x = ' ' := by
  intro x hx
  obtain ⟨z, hz⟩ := Option.isSome_iff_exists.mp
    (by rw [List.getLast?_isSome]; simp : ((c :: cells).getLast?).isSome)
  have hmap : ((c :: cells).map padCell).getLast? = some (padCell z) := by
    rw [List.getLast?_map, hz]
    rfl
  obtain ⟨pre, hp⟩ := intercalate_getLast_suffix _ (padCell z) hmap
  rw [hp, List.getLast?_append, padCell_getLast] at hx
  simp at hx
  exact hx.symm

theorem stripPipe_wrap (mid : Str) (h1 : ∀ x, mid.head? = some x → x ≠ '|')
    (h2 : ∀ x, mid.getLast? = some x → x ≠ '|') :
    stripPipe ('|' :: (mid ++ ['|'])) = mid := by
  unfold stripPipe
  rw [List.dropWhile_cons_of_pos (by decide)]
  cases hm : mid with
  | nil => decide
  | cons a rest =>
    have ha : a ≠ '|' := h1 a (by rw [hm]; rfl)
    have hd1 : List.dropWhile (fun c => c = '|') ((a :: rest) ++ ['|']) =
        (a :: rest) ++ ['|'] := by
      rw [List.cons_append]
      exact List.dropWhile_cons_of_neg (by simp [ha])
    rw [hd1, List.reverse_append]
    rw [show (['|'] : Str).reverse ++ (a :: rest).reverse = '|' :: (a :: rest).reverse from rfl]
    rw [List.dropWhile_cons_of_pos (by decide)]
    cases hr : (a :: rest).reverse with
    | nil => simp at hr
    | cons b rest2 =>
      have hb : b ≠ '|' := by
        apply h2 b
        rw [hm, ← List.head?_reverse, hr]
        rfl
      rw [List.dropWhile_cons_of_neg (by simp [hb]), ← hr, List.reverse_reverse]

theorem strip_renderRow (c : Str) (cs : List Str) :
    strip (renderRow (c :: cs)) = renderRow (c :: cs) := by
  refine strip_id _ ?_ ?_
  · intro x hx
    rw [renderRow_eq] at hx
    simp at hx
    rw [← hx]
    decide
  · intro x hx
    rw [renderRow_eq_intercalate] at hx
    rw [show ('|' :: (List.intercalate ['|'] ((c :: cs).map padCell) ++ ['|'])) =
      ('|' :: List.intercalate ['|'] ((c :: cs).map padCell)) ++ ['|'] from rfl,
      List.getLast?_concat] at hx
    simp at hx
    rw [← hx]
    decide

/-- The reader's parsing of one table line into stripped cells
(lines 110 and 120 of the source). -/
def parseCells (line : Str) : List Str :=
  ((stripPipe (strip line)).splitOn '|').map strip

/-- Round trip: parsing a rendered row recovers the stripped cells. -/
theorem parseCells_renderRow (c : Str) (cs : List Str)
    (hp : ∀ x ∈ c :: cs, '|' ∉ x) :
    parseCells (renderRow (c :: cs)) = (c :: cs).map strip := by
  have hpads : ∀ l ∈ (c :: cs).map padCell, '|' ∉ l := by
    intro l hl hmem
    rw [List.mem_map] at hl
    obtain ⟨y, hy, hly⟩ := hl
    rw [← hly] at hmem
    unfold padCell at hmem
    rcases List.mem_cons.mp hmem with h | h
    · exact absurd h (by decide)
    · rcases List.mem_append.mp h with h | h
      · exact hp y hy h
      · simp at h
  unfold parseCells
  rw [strip_renderRow, renderRow_eq_intercalate]
  rw [stripPipe_wrap _ (fun x hx => by rw [head_intercalate_pads cs c x hx]; decide)
    (fun x hx => by rw [last_intercalate_pads cs c x hx]; decide)]
  rw [List.splitOn_intercalate ((c :: cs).map padCell) '|' hpads (by simp)]
  rw [List.map_map]
  exact List.map_congr_left (fun a _ => strip_pad a)

/-! ## Exact output shape of the writer (toward claim C4) -/

theorem intercalate_append_ne (s : Str) (A B : List Str) (hA : A ≠ []) (hB : B ≠ []) :
    List.intercalate s (A ++ B) = List.intercalate s A ++ s ++ List.intercalate s B := by
  induction A with
  | nil => exact absurd rfl hA
  | cons a arest ih =>
    cases arest with
    | nil =>
      cases B with
      | nil => exact absurd rfl hB
      | cons b brest =>
        rw [List.singleton_append, intercalate_cons2, intercalate_one]
    | cons a2 arest2 =>
      rw [List.cons_append, List.cons_append, intercalate_cons2, intercalate_cons2,
        ← List.cons_append, ih (by simp)]
      simp [List.append_assoc]

theorem ends2Nl_append_nl (s : Str) : ends2Nl (s ++ nl) = endsNl s := by
  unfold ends2Nl endsNl nl
  rw [List.reverse_append]
  simp

/-- Joining with an empty first line prepends exactly one newline. -/
theorem intercalate_cons_empty (r1 : Str) (rs : List Str) :
    List.intercalate nl ([] :: r1 :: rs) = nl ++ List.intercalate nl (r1 :: rs) := by
  rw [intercalate_cons2]
  rfl

theorem intercalate_empty_tableLines (headers : List Str) (data : Table) :
    List.intercalate nl ([] :: tableLines headers data) =
      nl ++ List.intercalate nl (tableLines headers data) := by
  unfold tableLines
  exact intercalate_cons_empty _ _

theorem endsNl_false_of_last (s : Str) (h : ∀ c, s.getLast? = some c → c ≠ '\n') :
    endsNl s = false := by
  unfold endsNl
  cases hr : s.reverse with
  | nil => simp
  | cons c rest =>
    have hc : c ≠ '\n' := h c (by rw [← List.head?_reverse, hr]; rfl)
    simp [hc]

theorem write_glue_nil (T : Str) :
    (let t1 := if ([] : Str) ≠ [] ∧ endsNl [] = false then ([] : Str) ++ nl else []
     let t2 := if t1 ≠ [] ∧ ends2Nl t1 = false then
         (if endsNl t1 then t1 ++ nl else t1 ++ nl ++ nl) else t1
     if t2 ≠ [] then t2 ++ T else nl ++ T) = nl ++ T := by
  simp

theorem write_glue_notEndsNl (t0 T : Str) (h0 : t0 ≠ []) (hE : endsNl t0 = false) :
    (let t1 := if t0 ≠ [] ∧ endsNl t0 = false then t0 ++ nl else t0
     let t2 := if t1 ≠ [] ∧ ends2Nl t1 = false then
         (if endsNl t1 then t1 ++ nl else t1 ++ nl ++ nl) else t1
     if t2 ≠ [] then t2 ++ T else nl ++ T) = t0 ++ nl ++ nl ++ T := by
  simp [h0, hE, endsNl_append_nl, ends2Nl_append_nl, List.append_assoc]

/-- Exact shape of the writer's output when the cleaned prose lines are
newline-free with a non-blank last line: the output is exactly the cleaned
prose, one empty line, and the table lines, all joined with newlines. -/
theorem write_table_out_form (headers : List Str) (data : Table) (prose : List Str)
    (hnl : ∀ l ∈ dropTrailingBlank prose, ('\n' : Char) ∉ l)
    (hlast : ∀ x, (dropTrailingBlank prose).getLast? = some x → strip x ≠ []) :
    write_table headers data prose =
      List.intercalate nl (dropTrailingBlank prose ++ [] :: tableLines headers data) := by
  have hbody : write_table headers data prose =
      (let t0 := List.intercalate nl (dropTrailingBlank prose)
       let t1 := if t0 ≠ [] ∧ endsNl t0 = false then t0 ++ nl else t0
       let t2 := if t1 ≠ [] ∧ ends2Nl t1 = false then
           (if endsNl t1 then t1 ++ nl else t1 ++ nl ++ nl) else t1
       if t2 ≠ [] then t2 ++ List.intercalate nl (tableLines headers data)
       else nl ++ List.intercalate nl (tableLines headers data)) := rfl
  rw [hbody]
  cases hcl : dropTrailingBlank prose with
  | nil =>
    dsimp only
    rw [show List.intercalate nl ([] : List Str) = [] from rfl]
    rw [write_glue_nil]
    rw [List.nil_append]
    rw [intercalate_empty_tableLines]
  | cons a arest =>
    have hlast2 : ∀ x, (a :: arest).getLast? = some x → strip x ≠ [] := by
      intro x hx
      exact hlast x (by rw [hcl]; exact hx)
    obtain ⟨z, hz⟩ := Option.isSome_iff_exists.mp
      (by rw [List.getLast?_isSome]; simp : ((a :: arest).getLast?).isSome)
    have hzne : z ≠ [] := by
      intro h0
      apply hlast2 z hz
      rw [h0]
      rfl
    obtain ⟨pre, hp⟩ := intercalate_getLast_suffix (a :: arest) z hz
    have ht0ne : List.intercalate nl (a :: arest) ≠ [] := by
      rw [hp]
      simp [hzne]
    have hEfalse : endsNl (List.intercalate nl (a :: arest)) = false := by
      refine endsNl_false_of_last _ ?_
      intro c hc
      rw [hp, List.getLast?_append] at hc
      obtain ⟨w, hw⟩ := Option.isSome_iff_exists.mp
        (by rw [List.getLast?_isSome]; exact hzne : (z.getLast?).isSome)
      rw [hw] at hc
      simp at hc
      rw [← hc]
      intro hcontra
      have hwmem : w ∈ z := List.mem_of_getLast?_eq_some hw
      rw [hcontra] at hwmem
      have hzz : z ∈ a :: arest := List.mem_of_getLast?_eq_some hz
      exact (hnl z (by rw [hcl]; exact hzz)) hwmem
    dsimp only
    rw [write_glue_notEndsNl _ _ ht0ne hEfalse]
    rw [intercalate_append_ne nl (a :: arest) ([] :: tableLines headers data)
      (by simp) (by simp)]
    rw [intercalate_empty_tableLines]
    simp [List.append_assoc]

/-! ## Character membership in rendered rows (toward claim C4) -/

theorem mem_renderCell (v : Str) (x : Char) (h : x ∈ renderCell v) : x = ' ' ∨ x ∈ v := by
  unfold renderCell at h
  by_cases h0 : strip v = []
  · rw [if_pos h0] at h
    simp at h
    exact Or.inl h
  · rw [if_neg h0] at h
    exact Or.inr (mem_strip_subset v x h)

theorem mem_renderRow (cells : List Str) (x : Char) (h : x ∈ renderRow cells) :
    x = '|' ∨ x = ' ' ∨ ∃ c ∈ cells, x ∈ c := by
  rw [renderRow_eq] at h
  rcases List.mem_cons.mp h with h1 | h1
  · exact Or.inl h1
  · rw [List.mem_flatten] at h1
    obtain ⟨l, hl, hx⟩ := h1
    rw [List.mem_map] at hl
    obtain ⟨c, hc, hlc⟩ := hl
    rw [← hlc] at hx
    rcases List.mem_append.mp hx with h2 | h2
    · unfold padCell at h2
      rcases List.mem_cons.mp h2 with h3 | h3
      · exact Or.inr (Or.inl h3)
      · rcases List.mem_append.mp h3 with h4 | h4
        · exact Or.inr (Or.inr ⟨c, hc, h4⟩)
        · simp at h4
          exact Or.inr (Or.inl h4)
    · simp at h2
      exact Or.inl h2

theorem alookup_pair_mem {α : Type} {d : List (Str × α)} {k : Str} {v : α}
    (h : alookup k d = some v) : (k, v) ∈ d := by
  induction d with
  | nil => simp [alookup] at h
  | cons p rest ih =>
    obtain ⟨k2, v2⟩ := p
    by_cases h2 : k2 = k
    · subst h2
      rw [alookup_cons, if_pos rfl] at h
      simp at h
      rw [← h]
      exact List.mem_cons_self _ _
    · rw [alookup_cons, if_neg h2] at h
      exact List.mem_cons_of_mem _ (ih h)

/-- Every character of a looked-up cell value is a character of some stored
value. -/
theorem mem_agetD_rec (rec : Rec) (c : Str) (x : Char) (h : x ∈ agetD rec c []) :
    ∃ cv ∈ rec, x ∈ cv.2 := by
  unfold agetD at h
  cases hl : alookup c rec with
  | none => rw [hl] at h; simp at h
  | some v =>
    rw [hl] at h
    exact ⟨(c, v), alookup_pair_mem hl, h⟩

/-- No table line contains a newline (or, for the pipe variant, values and
headers free of the character keep rendered cells free of it). -/
theorem tableLines_no_char (headers : List Str) (data : Table) (x : Char)
    (hx1 : x ≠ '|') (hx2 : x ≠ ' ') (hx3 : x ≠ '-')
    (hh : ∀ c ∈ headers, x ∉ c)
    (hv : ∀ kr ∈ data, ∀ cv ∈ kr.2, x ∉ cv.2) :
    ∀ l ∈ tableLines headers data, x ∉ l := by
  intro l hl hmem
  unfold tableLines at hl
  rcases List.mem_cons.mp hl with h1 | h1
  · rw [h1] at hmem
    rcases mem_renderRow _ x hmem with h2 | h2 | ⟨c, hc, hxc⟩
    · exact hx1 h2
    · exact hx2 h2
    · rw [List.mem_map] at hc
      obtain ⟨hdr, hhdr, hch⟩ := hc
      rw [← hch] at hxc
      rcases mem_renderCell _ x hxc with h3 | h3
      · exact hx2 h3
      · exact hh hdr hhdr h3
  · rcases List.mem_cons.mp h1 with h2 | h2
    · rw [h2] at hmem
      rcases mem_renderRow _ x hmem with h3 | h3 | ⟨c, hc, hxc⟩
      · exact hx1 h3
      · exact hx2 h3
      · rw [List.mem_map] at hc
        obtain ⟨hdr, _, hch⟩ := hc
        rw [← hch] at hxc
        simp at hxc
        exact hx3 hxc
    · rw [List.mem_map] at h2
      obtain ⟨k, hk, hkl⟩ := h2
      rw [← hkl] at hmem
      rcases mem_renderRow _ x hmem with h3 | h3 | ⟨c, hc, hxc⟩
      · exact hx1 h3
      · exact hx2 h3
      · rw [List.mem_map] at hc
        obtain ⟨hdr, _, hch⟩ := hc
        rw [← hch] at hxc
        rcases mem_renderCell _ x hxc with h4 | h4
        · exact hx2 h4
        · obtain ⟨cv, hcv, hxcv⟩ := mem_agetD_rec _ _ x h4
          have hkrec : (agetD data k []) = [] ∨ ∃ kr ∈ data, kr.2 = agetD data k [] := by
            unfold agetD
            cases hlk : alookup k data with
            | none => exact Or.inl rfl
            | some r => exact Or.inr ⟨(k, r), alookup_pair_mem hlk, rfl⟩
          rcases hkrec with h5 | ⟨kr, hkr, hkr2⟩
          · rw [h5] at hcv
            simp at hcv
          · rw [← hkr2] at hcv
            exact hv kr hkr cv hcv hxcv

/-! ## Re-reading the written output (toward claim C4) -/

theorem findIdx?_boundary (p : α → Bool) (A : List α) (x : α) (rest : List α)
    (hA : ∀ a ∈ A, p a = false) (hx : p x = true) :
    (A ++ x :: rest).findIdx? p = some A.length := by
  induction A with
  | nil => simp [List.findIdx?_cons, hx]
  | cons a A2 ih =>
    rw [List.cons_append, List.findIdx?_cons, hA a (List.mem_cons_self a A2)]
    simp only [Bool.false_eq_true, if_false]
    rw [List.findIdx?_succ, ih (fun b hb => hA b (List.mem_cons_of_mem a hb))]
    rfl

theorem startsPipe_renderRow (cells : List Str) : startsPipe (renderRow cells) = true := by
  rw [renderRow_eq]
  rfl

theorem hasInfix_self_append (n suf : Str) : hasInfix n (n ++ suf) = true := by
  cases n with
  | nil =>
    cases suf with
    | nil => rfl
    | cons c rest =>
      unfold hasInfix
      simp [List.isPrefixOf]
  | cons m ms =>
    have hpre : (m :: ms).isPrefixOf (m :: (ms ++ suf)) = true := by
      rw [List.isPrefixOf_iff_prefix]
      exact List.prefix_append _ _
    rw [List.cons_append]
    show ((m :: ms).isPrefixOf (m :: (ms ++ suf)) || hasInfix (m :: ms) (ms ++ suf)) = true
    rw [hpre]
    rfl

theorem hasInfix_cons (n : Str) (c : Char) (s : Str) (h : hasInfix n s = true) :
    hasInfix n (c :: s) = true := by
  unfold hasInfix
  cases s with
  | nil =>
    unfold hasInfix at h
    cases n with
    | nil => rfl
    | cons m ms => simp [List.isPrefixOf] at h ⊢
  | cons b rest =>
    rw [h]
    simp

theorem hasInfix_append_left (n pre s : Str) (h : hasInfix n s = true) :
    hasInfix n (pre ++ s) = true := by
  induction pre with
  | nil => exact h
  | cons c rest ih => exact hasInfix_cons n c (rest ++ s) ih

theorem dropTrailingBlank_subset (p : List Str) (l : Str) (h : l ∈ dropTrailingBlank p) :
    l ∈ p := by
  unfold dropTrailingBlank at h
  rw [List.mem_reverse] at h
  have := (List.dropWhile_sublist (l := p.reverse) (p := fun x => strip x = [])).mem h
  rw [List.mem_reverse] at this
  exact this

theorem dropTrailingBlank_last (p : List Str) :
    ∀ x, (dropTrailingBlank p).getLast? = some x → strip x ≠ [] := by
  intro x hx
  unfold dropTrailingBlank at hx
  rw [List.getLast?_reverse] at hx
  have := head_dropWhile_false (fun l => strip l = []) p.reverse x hx
  simpa using this

theorem getD_append_length (A : List Str) (b : Str) (B : List Str) :
    (A ++ b :: B).getD A.length [] = b := by
  induction A with
  | nil => rfl
  | cons a A2 ih => simpa using ih

theorem drop_append_length_add (A B : List α) (n : Nat) :
    (A ++ B).drop (A.length + n) = B.drop n := by
  induction A with
  | nil => simp
  | cons a A2 ih => simpa [Nat.succ_add] using ih

theorem padTo_eq_self (n : Nat) (cells : List Str) (h : cells.length = n) :
    padTo n cells = cells := by
  unfold padTo
  rw [h, Nat.sub_self]
  simp

/-- The record the reader rebuilds from a rendered row: each header column
mapped to the stripped stored value. -/
def rec2Of (headers : List Str) (rec : Rec) : Rec :=
  recFromCells headers (headers.map (fun hh => strip (agetD rec hh [])))

theorem zip_map_self (l : List Str) (f : Str → Str) :
    l.zip (l.map f) = l.map (fun x => (x, f x)) := by
  induction l with
  | nil => rfl
  | cons a rest ih => simp [ih]

theorem alookup_foldl_ainsert_pairs (l : List Str) (f : Str → Str) (k : Str) :
    ∀ acc : Rec, alookup k ((l.map (fun x => (x, f x))).foldl (fun r p => ainsert p.1 p.2 r) acc) =
      if k ∈ l then some (f k) else alookup k acc := by
  induction l with
  | nil => intro acc; simp
  | cons x xs ih =>
    intro acc
    rw [List.map_cons, List.foldl_cons, ih]
    by_cases hmem : k ∈ xs
    · rw [if_pos hmem, if_pos (List.mem_cons_of_mem x hmem)]
    · rw [if_neg hmem]
      by_cases hx : x = k
      · subst hx
        rw [if_pos (List.mem_cons_self x xs), alookup_ainsert_self]
      · rw [alookup_ainsert_ne hx]
        rw [if_neg (by intro hc; rcases List.mem_cons.mp hc with h | h
                       · exact hx h.symm
                       · exact hmem h)]

/-- Looking up a header column in the rebuilt record yields the stripped
stored value; other columns are absent. -/
theorem agetD_rec2Of (headers : List Str) (rec : Rec) (c : Str) :
    agetD (rec2Of headers rec) c [] =
      if c ∈ headers then strip (agetD rec c []) else [] := by
  unfold rec2Of recFromCells
  rw [zip_map_self]
  unfold agetD
  rw [alookup_foldl_ainsert_pairs]
  by_cases h : c ∈ headers
  · rw [if_pos h, if_pos h]
    rfl
  · rw [if_neg h, if_neg h]
    rfl

theorem readRows_cons (headers : List Str) (l : Str) (rest : List Str) (acc : Table)
    (hsp : startsPipe (strip l) = true) :
    readRows headers (l :: rest) acc =
      readRows headers rest
        (if (parseCells l).length ≥ 1 ∧ (parseCells l).headD [] ≠ [] ∧
            (parseCells l).headD [] ≠ dashDash then
          ainsert ((parseCells l).headD [])
            (recFromCells headers (padTo headers.length (parseCells l))) acc
        else acc) := by
  rw [show readRows headers (l :: rest) acc =
      (if startsPipe (strip l) then
        readRows headers rest
          (if (((stripPipe (strip l)).splitOn '|').map strip).length ≥ 1 ∧
              (((stripPipe (strip l)).splitOn '|').map strip).headD [] ≠ [] ∧
              (((stripPipe (strip l)).splitOn '|').map strip).headD [] ≠ dashDash then
            ainsert ((((stripPipe (strip l)).splitOn '|').map strip).headD [])
              (recFromCells headers
                (padTo headers.length (((stripPipe (strip l)).splitOn '|').map strip))) acc
          else acc)
      else (acc, l :: rest)) from rfl]
  rw [if_pos hsp]
  rfl

/-- Reading back a block of rendered data rows rebuilds, in order, one
record per key. -/
theorem readRows_rendered (hc : Str) (hs : List Str) (m : Table) (ks : List Str)
    (hkc : ∀ k ∈ ks, strip (agetD (agetD m k []) hc []) = k ∧ k ≠ [] ∧ k ≠ dashDash)
    (hpf : ∀ k ∈ ks, ∀ hh ∈ hc :: hs, ('|' : Char) ∉ agetD (agetD m k []) hh []) :
    ∀ acc, readRows (hc :: hs)
        (ks.map (fun k => renderRow ((hc :: hs).map
          (fun hh => renderCell (agetD (agetD m k []) hh []))))) acc =
      (ks.foldl (fun acc k => ainsert k (rec2Of (hc :: hs) (agetD m k [])) acc) acc, []) := by
  induction ks with
  | nil => intro acc; rfl
  | cons k ks2 ih =>
    intro acc
    rw [List.map_cons]
    have hpipefree : ∀ x ∈ (hc :: hs).map (fun hh => renderCell (agetD (agetD m k []) hh [])),
        ('|' : Char) ∉ x := by
      intro x hx hmem
      rw [List.mem_map] at hx
      obtain ⟨hh, hhh, hxh⟩ := hx
      rw [← hxh] at hmem
      rcases mem_renderCell _ _ hmem with h1 | h1
      · exact absurd h1 (by decide)
      · exact hpf k (List.mem_cons_self k ks2) hh hhh h1
    have hcells : parseCells (renderRow ((hc :: hs).map
        (fun hh => renderCell (agetD (agetD m k []) hh [])))) =
        (hc :: hs).map (fun hh => strip (agetD (agetD m k []) hh [])) := by
      rw [show (hc :: hs).map (fun hh => renderCell (agetD (agetD m k []) hh [])) =
        renderCell (agetD (agetD m k []) hc []) ::
          hs.map (fun hh => renderCell (agetD (agetD m k []) hh [])) from rfl]
      rw [parseCells_renderRow _ _ (by
        intro x hx
        exact hpipefree x (by rw [List.map_cons]; exact hx))]
      rw [show (renderCell (agetD (agetD m k []) hc []) ::
          hs.map (fun hh => renderCell (agetD (agetD m k []) hh []))) =
          (hc :: hs).map (fun hh => renderCell (agetD (agetD m k []) hh [])) from rfl]
      rw [List.map_map]
      refine List.map_congr_left ?_
      intro a _
      exact strip_renderCell _
    have hstrip : strip (renderRow ((hc :: hs).map
        (fun hh => renderCell (agetD (agetD m k []) hh [])))) =
        renderRow ((hc :: hs).map (fun hh => renderCell (agetD (agetD m k []) hh []))) := by
      rw [List.map_cons]
      exact strip_renderRow _ _
    rw [readRows_cons _ _ _ _ (by rw [hstrip, List.map_cons]; exact startsPipe_renderRow _)]
    obtain ⟨hk1, hk2, hk3⟩ := hkc k (List.mem_cons_self k ks2)
    have hhead : (parseCells (renderRow ((hc :: hs).map
        (fun hh => renderCell (agetD (agetD m k []) hh []))))).headD [] = k := by
      rw [hcells, List.map_cons]
      exact hk1
    have hcond : (parseCells (renderRow ((hc :: hs).map
          (fun hh => renderCell (agetD (agetD m k []) hh []))))).length ≥ 1 ∧
        (parseCells (renderRow ((hc :: hs).map
          (fun hh => renderCell (agetD (agetD m k []) hh []))))).headD [] ≠ [] ∧
        (parseCells (renderRow ((hc :: hs).map
          (fun hh => renderCell (agetD (agetD m k []) hh []))))).headD [] ≠ dashDash := by
      refine ⟨?_, ?_, ?_⟩
      · rw [hcells]
        simp
      · rw [hhead]
        exact hk2
      · rw [hhead]
        exact hk3
    rw [if_pos hcond, hhead]
    have hrec : recFromCells (hc :: hs) (padTo (hc :: hs).length (parseCells (renderRow
        ((hc :: hs).map (fun hh => renderCell (agetD (agetD m k []) hh [])))))) =
        rec2Of (hc :: hs) (agetD m k []) := by
      rw [hcells, padTo_eq_self _ _ (by simp)]
      rfl
    rw [hrec]
    rw [ih (fun k2 hk => hkc k2 (List.mem_cons_of_mem k hk))
      (fun k2 hk => hpf k2 (List.mem_cons_of_mem k hk))]
    rw [List.foldl_cons]

/-- The rendered header row is recognized as a header line when the first
column is 标识符. -/
theorem isHeaderLine_headerRow (headers : List Str) (h0 : headers.head? = some colId) :
    isHeaderLine (renderRow (headers.map renderCell)) = true := by
  cases headers with
  | nil => simp at h0
  | cons c cs =>
    have hc : c = colId := by simpa using h0
    subst hc
    unfold isHeaderLine
    rw [startsPipe_renderRow, Bool.true_and]
    have hcell : renderCell colId = colId := by decide
    rw [List.map_cons, renderRow_eq, List.map_cons, List.flatten_cons, hcell]
    have hshape : ('|' :: ((padCell colId ++ ['|']) ++
        ((cs.map renderCell).map (fun x => padCell x ++ ['|'])).flatten)) =
        ['|', ' '] ++ (colId ++ ([' ', '|'] ++
          ((cs.map renderCell).map (fun x => padCell x ++ ['|'])).flatten)) := by
      simp [padCell, List.append_assoc]
    rw [hshape]
    exact hasInfix_append_left colId ['|', ' '] _ (hasInfix_self_append colId _)

/-- Reading back the writer's output recovers the headers, the per-column
stripped records keyed in sorted order, and the cleaned prose plus one blank
line. -/
theorem read_back (headers : List Str) (m : Table) (prose : List Str)
    (hh0 : headers.head? = some colId)
    (hhdr : ∀ x ∈ headers, strip x = x ∧ ('|' : Char) ∉ x ∧ ('\n' : Char) ∉ x)
    (hprose : ∀ l ∈ prose, isHeaderLine l = false ∧ ('\n' : Char) ∉ l)
    (hvals : ∀ kr ∈ m, ∀ cv ∈ kr.2, ('|' : Char) ∉ cv.2 ∧ ('\n' : Char) ∉ cv.2)
    (hkeys : ∀ kr ∈ m, strip (agetD kr.2 colId []) = kr.1 ∧ kr.1 ≠ [] ∧ kr.1 ≠ dashDash) :
    read_existing_table (write_table headers m prose) =
      (headers,
       (sortStrs (akeys m)).foldl
         (fun acc k => ainsert k (rec2Of headers (agetD m k [])) acc) [],
       dropTrailingBlank prose ++ [[]]) := by
  obtain ⟨hcol, hrest, hform⟩ : ∃ hc hs, headers = hc :: hs := by
    cases headers with
    | nil => simp at hh0
    | cons c cs => exact ⟨c, cs, rfl⟩
  have hcolid : hcol = colId := by
    rw [hform] at hh0
    simpa using hh0
  -- the output in joined form
  have hout := write_table_out_form headers m prose
    (fun l hl => (hprose l (dropTrailingBlank_subset prose l hl)).2)
    (dropTrailingBlank_last prose)
  -- every joined line is newline-free
  have hLnl : ∀ l ∈ dropTrailingBlank prose ++ [] :: tableLines headers m,
      ('\n' : Char) ∉ l := by
    intro l hl
    rcases List.mem_append.mp hl with h1 | h1
    · exact (hprose l (dropTrailingBlank_subset prose l h1)).2
    · rcases List.mem_cons.mp h1 with h2 | h2
      · rw [h2]
        simp
      · exact tableLines_no_char headers m '\n' (by decide) (by decide) (by decide)
          (fun c hc => (hhdr c hc).2.2) (fun kr hkr cv hcv => (hvals kr hkr cv hcv).2) l h2
  have hsplit : (write_table headers m prose).splitOn '\n' =
      dropTrailingBlank prose ++ [] :: tableLines headers m := by
    rw [hout]
    exact List.splitOn_intercalate _ '\n' hLnl (by simp)
  -- locate the header line
  have hsplit2 : (write_table headers m prose).splitOn '\n' =
      (dropTrailingBlank prose ++ [[]]) ++ tableLines headers m := by
    rw [hsplit, List.append_cons]
  have hAfalse : ∀ a ∈ dropTrailingBlank prose ++ [[]], isHeaderLine a = false := by
    intro a ha
    rcases List.mem_append.mp ha with h1 | h1
    · exact (hprose a (dropTrailingBlank_subset prose a h1)).1
    · simp at h1
      rw [h1]
      rfl
  have hfind : (((dropTrailingBlank prose ++ [[]]) ++ tableLines headers m).findIdx?
      isHeaderLine) = some (dropTrailingBlank prose ++ [[]]).length := by
    unfold tableLines
    exact findIdx?_boundary isHeaderLine (dropTrailingBlank prose ++ [[]]) _ _
      hAfalse (isHeaderLine_headerRow headers hh0)
  -- the reader's three components
  have hgetD : ((dropTrailingBlank prose ++ [[]]) ++ tableLines headers m).getD
      (dropTrailingBlank prose ++ [[]]).length [] = renderRow (headers.map renderCell) := by
    unfold tableLines
    exact getD_append_length _ _ _
  have hheaders2 : parseCells (renderRow (headers.map renderCell)) = headers := by
    rw [hform]
    rw [show (hcol :: hrest).map renderCell = renderCell hcol :: hrest.map renderCell from rfl]
    rw [parseCells_renderRow _ _ (by
      intro x hx hmem
      rw [show (renderCell hcol :: hrest.map renderCell) =
        (hcol :: hrest).map renderCell from rfl] at hx
      rw [List.mem_map] at hx
      obtain ⟨hh, hhh, hxh⟩ := hx
      rw [← hxh] at hmem
      rcases mem_renderCell _ _ hmem with h1 | h1
      · exact absurd h1 (by decide)
      · exact (hhdr hh (by rw [hform]; exact hhh)).2.1 h1)]
    rw [show (renderCell hcol :: hrest.map renderCell) =
      (hcol :: hrest).map renderCell from rfl]
    rw [List.map_map]
    have hstep : (hcol :: hrest).map (strip ∘ renderCell) = (hcol :: hrest).map strip :=
      List.map_congr_left (fun a _ => strip_renderCell a)
    have hstep2 : (hcol :: hrest).map strip = (hcol :: hrest).map id :=
      List.map_congr_left (fun a ha => (hhdr a (by rw [hform]; exact ha)).1)
    rw [hstep, hstep2, List.map_id]
  have hdrop : ((dropTrailingBlank prose ++ [[]]) ++ tableLines headers m).drop
      ((dropTrailingBlank prose ++ [[]]).length + 2) =
      (sortStrs (akeys m)).map (fun k => renderRow (headers.map
        (fun hh => renderCell (agetD (agetD m k []) hh [])))) := by
    rw [drop_append_length_add]
    rfl
  have hka : ∀ k ∈ sortStrs (akeys m), ∃ r, alookup k m = some r := by
    intro k hk
    have hmem : k ∈ akeys m := by
      unfold sortStrs at hk
      exact (List.perm_insertionSort _ (akeys m)).mem_iff.mp hk
    exact Option.isSome_iff_exists.mp (alookup_isSome_of_mem_akeys hmem)
  have hrows : readRows headers (((sortStrs (akeys m)).map (fun k => renderRow (headers.map
      (fun hh => renderCell (agetD (agetD m k []) hh [])))))) [] =
      ((sortStrs (akeys m)).foldl
        (fun acc k => ainsert k (rec2Of headers (agetD m k [])) acc) [], []) := by
    rw [hform]
    refine readRows_rendered hcol hrest m (sortStrs (akeys m)) ?_ ?_ []
    · intro k hk
      obtain ⟨r, hr⟩ := hka k hk
      have hrg : agetD m k [] = r := by
        unfold agetD
        rw [hr]
        rfl
      have hpair := hkeys (k, r) (alookup_pair_mem hr)
      rw [hrg, hcolid]
      exact hpair
    · intro k hk hh _ hmem
      obtain ⟨r, hr⟩ := hka k hk
      have hrg : agetD m k [] = r := by
        unfold agetD
        rw [hr]
        rfl
      rw [hrg] at hmem
      obtain ⟨cv, hcv, hxcv⟩ := mem_agetD_rec r hh '|' hmem
      exact (hvals (k, r) (alookup_pair_mem hr) cv hcv).1 hxcv
  have htake : ((dropTrailingBlank prose ++ [[]]) ++ tableLines headers m).take
      (dropTrailingBlank prose ++ [[]]).length = dropTrailingBlank prose ++ [[]] :=
    List.take_left _ _
  -- assemble
  show (let lines := (write_table headers m prose).splitOn '\n'
        match lines.findIdx? isHeaderLine with
        | none => (defaultHeaders, ([] : Table), lines)
        | some i =>
          let headers2 := ((stripPipe (strip (lines.getD i []))).splitOn '|').map strip
          let res := readRows headers2 (lines.drop (i + 2)) []
          (headers2, res.1, lines.take i ++ res.2)) =
      (headers,
       (sortStrs (akeys m)).foldl
         (fun acc k => ainsert k (rec2Of headers (agetD m k [])) acc) [],
       dropTrailingBlank prose ++ [[]])
  dsimp only
  rw [hsplit2, hfind]
  dsimp only
  rw [hgetD]
  rw [show ((stripPipe (strip (renderRow (headers.map renderCell)))).splitOn '|').map strip =
    parseCells (renderRow (headers.map renderCell)) from rfl]
  rw [hheaders2, hdrop, hrows, htake]
  rw [List.append_nil]

/-! ## Backfill idempotence and per-column behaviour (toward claim C4) -/

/-- After a conditional fill, a blank-but-fillable column stores exactly the
fill value. -/
def fillReady (c w : Str) (e : Rec) : Prop :=
  (is_empty_or_whitespace (agetD e c []) = true ∧ w ≠ []) → alookup c e = some w

theorem fillReady_fillCol (c w : Str) (e : Rec) : fillReady c w (fillCol c w e) := by
  unfold fillReady fillCol
  by_cases hcond : is_empty_or_whitespace (agetD e c []) = true ∧ w ≠ []
  · rw [if_pos hcond]
    intro _
    exact alookup_ainsert_self c w e
  · rw [if_neg hcond]
    intro h2
    exact absurd h2 hcond

theorem fillReady_fillCol_ne (c w c2 w2 : Str) (e : Rec) (hne : c2 ≠ c)
    (h : fillReady c w e) : fillReady c w (fillCol c2 w2 e) := by
  unfold fillReady at h ⊢
  intro hcond
  rw [agetD_fillCol_ne hne] at hcond
  unfold fillCol
  split
  · rw [alookup_ainsert_ne hne]
    exact h hcond
  · exact h hcond

theorem fillCol_of_fillReady (c w : Str) (e : Rec) (h : fillReady c w e) :
    fillCol c w e = e := by
  unfold fillCol
  by_cases hcond : is_empty_or_whitespace (agetD e c []) = true ∧ w ≠ []
  · rw [if_pos hcond]
    exact ainsert_lookup_self (h hcond)
  · rw [if_neg hcond]

/-- Backfilling twice with the same values is the same as backfilling
once. -/
theorem backfill_idem (a b k2 : Str) (e : Rec) :
    backfillEntry a b k2 (backfillEntry a b k2 e) = backfillEntry a b k2 e := by
  have hzh : fillReady colZh a (fillCol colKey k2 (fillCol colEn b (fillCol colZh a e))) :=
    fillReady_fillCol_ne _ _ _ _ _ (by decide)
      (fillReady_fillCol_ne _ _ _ _ _ (by decide) (fillReady_fillCol colZh a e))
  have hen : fillReady colEn b (fillCol colKey k2 (fillCol colEn b (fillCol colZh a e))) :=
    fillReady_fillCol_ne _ _ _ _ _ (by decide) (fillReady_fillCol colEn b _)
  have hkey : fillReady colKey k2 (fillCol colKey k2 (fillCol colEn b (fillCol colZh a e))) :=
    fillReady_fillCol colKey k2 _
  show backfillEntry a b k2 (fillCol colKey k2 (fillCol colEn b (fillCol colZh a e))) =
    fillCol colKey k2 (fillCol colEn b (fillCol colZh a e))
  unfold backfillEntry
  rw [fillCol_of_fillReady _ _ _ hzh, fillCol_of_fillReady _ _ _ hen,
    fillCol_of_fillReady _ _ _ hkey]

theorem agetD_fillCol_self (c w : Str) (e : Rec) :
    agetD (fillCol c w e) c [] =
      if is_empty_or_whitespace (agetD e c []) = true ∧ w ≠ [] then w
      else agetD e c [] := by
  unfold fillCol
  by_cases h : is_empty_or_whitespace (agetD e c []) = true ∧ w ≠ []
  · rw [if_pos h, if_pos h, agetD_ainsert_self]
  · rw [if_neg h, if_neg h]

theorem agetD_backfill_zh (a b k2 : Str) (e : Rec) :
    agetD (backfillEntry a b k2 e) colZh [] =
      if is_empty_or_whitespace (agetD e colZh []) = true ∧ a ≠ [] then a
      else agetD e colZh [] := by
  unfold backfillEntry
  rw [agetD_fillCol_ne (show colKey ≠ colZh from by decide),
    agetD_fillCol_ne (show colEn ≠ colZh from by decide), agetD_fillCol_self]

theorem agetD_backfill_en (a b k2 : Str) (e : Rec) :
    agetD (backfillEntry a b k2 e) colEn [] =
      if is_empty_or_whitespace (agetD e colEn []) = true ∧ b ≠ [] then b
      else agetD e colEn [] := by
  unfold backfillEntry
  rw [agetD_fillCol_ne (show colKey ≠ colEn from by decide), agetD_fillCol_self,
    agetD_fillCol_ne (show colZh ≠ colEn from by decide)]

theorem agetD_backfill_key (a b k2 : Str) (e : Rec) :
    agetD (backfillEntry a b k2 e) colKey [] =
      if is_empty_or_whitespace (agetD e colKey []) = true ∧ k2 ≠ [] then k2
      else agetD e colKey [] := by
  unfold backfillEntry
  rw [agetD_fillCol_self, agetD_fillCol_ne (show colEn ≠ colKey from by decide),
    agetD_fillCol_ne (show colZh ≠ colKey from by decide)]

theorem is_empty_congr {x y : Str} (h : strip x = strip y) :
    is_empty_or_whitespace x = is_empty_or_whitespace y := by
  rw [Bool.eq_iff_iff, is_empty_iff, is_empty_iff, h]

/-- The backfill respects per-column strip-equality of records. -/
theorem backfill_strip_congr (a b k2 : Str) (eT eU : Rec) (c : Str)
    (h : strip (agetD eT c []) = strip (agetD eU c [])) :
    strip (agetD (backfillEntry a b k2 eT) c []) =
      strip (agetD (backfillEntry a b k2 eU) c []) := by
  by_cases hzh : c = colZh
  · subst hzh
    rw [agetD_backfill_zh, agetD_backfill_zh]
    rw [is_empty_congr h]
    by_cases hcond : is_empty_or_whitespace (agetD eU colZh []) = true ∧ a ≠ []
    · rw [if_pos hcond, if_pos hcond]
    · rw [if_neg hcond, if_neg hcond]
      exact h
  · by_cases hen : c = colEn
    · subst hen
      rw [agetD_backfill_en, agetD_backfill_en, is_empty_congr h]
      by_cases hcond : is_empty_or_whitespace (agetD eU colEn []) = true ∧ b ≠ []
      · rw [if_pos hcond, if_pos hcond]
      · rw [if_neg hcond, if_neg hcond]
        exact h
    · by_cases hkey : c = colKey
      · subst hkey
        rw [agetD_backfill_key, agetD_backfill_key, is_empty_congr h]
        by_cases hcond : is_empty_or_whitespace (agetD eU colKey []) = true ∧ k2 ≠ []
        · rw [if_pos hcond, if_pos hcond]
        · rw [if_neg hcond, if_neg hcond]
          exact h
      · rw [agetD_backfill_ne hzh hen hkey, agetD_backfill_ne hzh hen hkey]
        exact h

/-! ## Merge idempotence and lockstep congruence (toward claim C4) -/

theorem foldl_mergeStep_not_mem (cn en : TransMap) (l : List Str) :
    ∀ (T : Table) (k : Str), k ∉ l →
    alookup k (l.foldl (mergeStep cn en) T) = alookup k T := by
  induction l with
  | nil => intro T k _; rfl
  | cons a rest ih =>
    intro T k hk
    rw [List.foldl_cons, ih _ k (fun h => hk (List.mem_cons_of_mem a h)),
      alookup_mergeStep_ne (fun h => hk (by rw [h]; exact List.mem_cons_self k rest))]

/-- Every identifier processed by the merge loop ends with a record that is
a fixpoint of its own backfill. -/
theorem foldl_mergeStep_fixpoint (cn en : TransMap) (l : List Str) :
    ∀ (T : Table) (k : Str) (r : Rec), k ∈ l →
    alookup k (l.foldl (mergeStep cn en) T) = some r →
    backfillEntry (stepVals cn en k).1 (stepVals cn en k).2.1 (stepVals cn en k).2.2 r = r := by
  induction l with
  | nil => intro T k r hmem; exact absurd hmem (List.not_mem_nil k)
  | cons a rest ih =>
    intro T k r hmem hl
    by_cases hk : k ∈ rest
    · exact ih (mergeStep cn en T a) k r hk hl
    · have hka : a = k := by
        rcases List.mem_cons.mp hmem with h | h
        · exact h.symm
        · exact absurd h hk
      subst hka
      rw [List.foldl_cons, foldl_mergeStep_not_mem cn en rest _ a hk] at hl
      unfold mergeStep at hl
      cases hT : alookup a T with
      | some e0 =>
        rw [hT] at hl
        dsimp only at hl
        rw [alookup_ainsert_self] at hl
        have hr : backfillEntry (stepVals cn en a).1 (stepVals cn en a).2.1
            (stepVals cn en a).2.2 e0 = r := by
          injection hl
        rw [← hr]
        exact backfill_idem _ _ _ e0
      | none =>
        rw [hT] at hl
        dsimp only at hl
        rw [alookup_append, hT] at hl
        simp [alookup] at hl
        rw [← hl]
        exact backfill_newRecord_self _ _ _ _

theorem isSome_alookup_mergeStep_self (cn en : TransMap) (T : Table) (k : Str) :
    (alookup k (mergeStep cn en T k)).isSome := by
  unfold mergeStep
  cases hT : alookup k T with
  | some e0 =>
    dsimp only
    rw [alookup_ainsert_self]
    rfl
  | none =>
    dsimp only
    rw [alookup_append, hT]
    simp [alookup]

theorem isSome_alookup_mergeStep (cn en : TransMap) (T : Table) (k a : Str)
    (h : (alookup k T).isSome) : (alookup k (mergeStep cn en T a)).isSome := by
  by_cases ha : a = k
  · subst ha
    exact isSome_alookup_mergeStep_self cn en T a
  · rw [alookup_mergeStep_ne ha]
    exact h

theorem foldl_mergeStep_keeps_some (cn en : TransMap) (l : List Str) :
    ∀ (T : Table) (k : Str), (alookup k T).isSome →
    (alookup k (l.foldl (mergeStep cn en) T)).isSome := by
  induction l with
  | nil => intro T k h; exact h
  | cons a rest ih =>
    intro T k h
    exact ih _ k (isSome_alookup_mergeStep cn en T k a h)

theorem foldl_mergeStep_mem_isSome (cn en : TransMap) (l : List Str) :
    ∀ (T : Table) (k : Str), k ∈ l →
    (alookup k (l.foldl (mergeStep cn en) T)).isSome := by
  induction l with
  | nil => intro T k h; exact absurd h (List.not_mem_nil k)
  | cons a rest ih =>
    intro T k h
    by_cases hk : k ∈ rest
    · exact ih _ k hk
    · have hka : a = k := by
        rcases List.mem_cons.mp h with h2 | h2
        · exact h2.symm
        · exact absurd h2 hk
      subst hka
      rw [List.foldl_cons]
      exact foldl_mergeStep_keeps_some cn en rest _ a
        (isSome_alookup_mergeStep_self cn en T a)

/-- The merge loop is the identity on a table in which every processed
identifier is present with a backfill-fixpoint record. -/
theorem foldl_mergeStep_id_of_fix (cn en : TransMap) (l : List Str) :
    ∀ (T : Table),
    (∀ k ∈ l, ∃ r, alookup k T = some r ∧
      backfillEntry (stepVals cn en k).1 (stepVals cn en k).2.1
        (stepVals cn en k).2.2 r = r) →
    l.foldl (mergeStep cn en) T = T := by
  induction l with
  | nil => intro T _; rfl
  | cons a rest ih =>
    intro T h
    obtain ⟨r, hr, hfix⟩ := h a (List.mem_cons_self a rest)
    have hstep : mergeStep cn en T a = T := by
      rw [mergeStep_present hr cn en, hfix]
      exact ainsert_lookup_self hr
    rw [List.foldl_cons, hstep]
    exact ih T (fun k hk => h k (List.mem_cons_of_mem a hk))

/-- Running the merge loop again on its own output changes nothing. -/
theorem merge_merge_fix (ids : List Str) (cn en : TransMap) (d : Table) :
    (sortStrs ids).foldl (mergeStep cn en) (merge_table_data ids cn en d) =
      merge_table_data ids cn en d := by
  refine foldl_mergeStep_id_of_fix cn en (sortStrs ids) _ ?_
  intro k hk
  obtain ⟨r, hr⟩ := Option.isSome_iff_exists.mp
    (foldl_mergeStep_mem_isSome cn en (sortStrs ids) d k hk)
  exact ⟨r, hr, foldl_mergeStep_fixpoint cn en (sortStrs ids) d k r hk hr⟩

theorem akeys_mergeStep_present (cn en : TransMap) (T : Table) (a : Str)
    (h : (alookup a T).isSome) : akeys (mergeStep cn en T a) = akeys T := by
  obtain ⟨e0, he0⟩ := Option.isSome_iff_exists.mp h
  rw [mergeStep_present he0 cn en]
  exact akeys_ainsert_present he0 _

theorem foldl_mergeStep_keys_of_mem (cn en : TransMap) (l : List Str) :
    ∀ (T : Table), (∀ k ∈ l, (alookup k T).isSome) →
    akeys (l.foldl (mergeStep cn en) T) = akeys T := by
  induction l with
  | nil => intro T _; rfl
  | cons a rest ih =>
    intro T h
    rw [List.foldl_cons, ih _ (fun k hk => isSome_alookup_mergeStep cn en T k a
      (h k (List.mem_cons_of_mem a hk)))]
    exact akeys_mergeStep_present cn en T a (h a (List.mem_cons_self a rest))

/-- Lockstep congruence: folding the merge loop over two tables whose
records agree column-wise up to `strip` (on the tracked columns) keeps that
agreement. -/
theorem foldl_mergeStep_lockstep (cn en : TransMap) (hs : List Str) (l : List Str) :
    ∀ (T U : Table),
    (∀ k ∈ l, (alookup k T).isSome) →
    (∀ k ∈ l, (alookup k U).isSome) →
    (∀ k rT rU, alookup k T = some rT → alookup k U = some rU →
      ∀ c ∈ hs, strip (agetD rT c []) = strip (agetD rU c [])) →
    ∀ k rT rU, alookup k (l.foldl (mergeStep cn en) T) = some rT →
      alookup k (l.foldl (mergeStep cn en) U) = some rU →
      ∀ c ∈ hs, strip (agetD rT c []) = strip (agetD rU c []) := by
  induction l with
  | nil =>
    intro T U _ _ hvals k rT rU h1 h2
    exact hvals k rT rU h1 h2
  | cons a rest ih =>
    intro T U hT hU hvals
    obtain ⟨eT, heT⟩ := Option.isSome_iff_exists.mp (hT a (List.mem_cons_self a rest))
    obtain ⟨eU, heU⟩ := Option.isSome_iff_exists.mp (hU a (List.mem_cons_self a rest))
    have hstepT : mergeStep cn en T a = ainsert a (backfillEntry (stepVals cn en a).1
        (stepVals cn en a).2.1 (stepVals cn en a).2.2 eT) T := mergeStep_present heT cn en
    have hstepU : mergeStep cn en U a = ainsert a (backfillEntry (stepVals cn en a).1
        (stepVals cn en a).2.1 (stepVals cn en a).2.2 eU) U := mergeStep_present heU cn en
    rw [List.foldl_cons, List.foldl_cons]
    refine ih (mergeStep cn en T a) (mergeStep cn en U a)
      (fun k hk => isSome_alookup_mergeStep cn en T k a (hT k (List.mem_cons_of_mem a hk)))
      (fun k hk => isSome_alookup_mergeStep cn en U k a (hU k (List.mem_cons_of_mem a hk)))
      ?_
    intro k rT rU h1 h2 c hc
    by_cases hka : a = k
    · subst hka
      rw [hstepT, alookup_ainsert_self] at h1
      rw [hstepU, alookup_ainsert_self] at h2
      have hrT : backfillEntry (stepVals cn en a).1 (stepVals cn en a).2.1
          (stepVals cn en a).2.2 eT = rT := by injection h1
      have hrU : backfillEntry (stepVals cn en a).1 (stepVals cn en a).2.1
          (stepVals cn en a).2.2 eU = rU := by injection h2
      rw [← hrT, ← hrU]
      exact backfill_strip_congr _ _ _ eT eU c (hvals a eT eU heT heU c hc)
    · rw [alookup_mergeStep_ne hka] at h1 h2
      exact hvals k rT rU h1 h2 c hc

/-! ## Sorting facts (toward claim C4) -/

theorem strLe_total (a : Str) : ∀ b, strLe a b = true ∨ strLe b a = true := by
  induction a with
  | nil => intro b; exact Or.inl rfl
  | cons x xs ih =>
    intro b
    cases b with
    | nil => exact Or.inr rfl
    | cons y ys =>
      rcases lt_trichotomy x y with h | h | h
      · left
        unfold strLe
        rw [if_pos h]
      · subst h
        rcases ih ys with h2 | h2
        · left
          unfold strLe
          rw [if_neg (lt_irrefl x)]
          rw [if_neg (lt_irrefl x)]
          exact h2
        · right
          unfold strLe
          rw [if_neg (lt_irrefl x)]
          rw [if_neg (lt_irrefl x)]
          exact h2
      · right
        unfold strLe
        rw [if_pos h]

theorem strLe_cons (x y : Char) (xs ys : Str) :
    strLe (x :: xs) (y :: ys) =
      if x < y then true else if y < x then false else strLe xs ys := rfl

theorem strLe_cons_iff (x y : Char) (xs ys : Str) :
    strLe (x :: xs) (y :: ys) = true ↔ x < y ∨ (x = y ∧ strLe xs ys = true) := by
  rw [strLe_cons]
  by_cases hxy : x < y
  · rw [if_pos hxy]
    simp [hxy]
  · rw [if_neg hxy]
    by_cases hyx : y < x
    · rw [if_pos hyx]
      constructor
      · intro h
        exact absurd h (by simp)
      · intro h
        rcases h with h | ⟨he, _⟩
        · exact absurd h hxy
        · exact absurd he (ne_of_gt hyx)
    · rw [if_neg hyx]
      have hxyeq : x = y := le_antisymm (not_lt.mp hyx) (not_lt.mp hxy)
      constructor
      · intro h
        exact Or.inr ⟨hxyeq, h⟩
      · intro h
        rcases h with h | ⟨_, ht⟩
        · exact absurd h hxy
        · exact ht

theorem strLe_trans (a : Str) : ∀ b c, strLe a b = true → strLe b c = true →
    strLe a c = true := by
  induction a with
  | nil => intro b c _ _; rfl
  | cons x xs ih =>
    intro b c h1 h2
    cases b with
    | nil => exact absurd h1 (by simp [strLe])
    | cons y ys =>
      cases c with
      | nil => exact absurd h2 (by simp [strLe])
      | cons z zs =>
        rw [strLe_cons_iff] at h1 h2 ⊢
        rcases h1 with h1 | ⟨h1e, h1t⟩
        · rcases h2 with h2 | ⟨h2e, h2t⟩
          · exact Or.inl (lt_trans h1 h2)
          · exact Or.inl (by rw [← h2e]; exact h1)
        · rcases h2 with h2 | ⟨h2e, h2t⟩
          · exact Or.inl (by rw [h1e]; exact h2)
          · exact Or.inr ⟨h1e.trans h2e, ih ys zs h1t h2t⟩

instance : IsTotal Str (fun a b => strLe a b = true) := ⟨strLe_total⟩

instance : IsTrans Str (fun a b => strLe a b = true) := ⟨strLe_trans⟩

/-- Sorting is idempotent. -/
theorem sortStrs_idem (l : List Str) : sortStrs (sortStrs l) = sortStrs l :=
  List.Sorted.insertionSort_eq (List.sorted_insertionSort _ l)

theorem sortStrs_nodup (l : List Str) (h : l.Nodup) : (sortStrs l).Nodup :=
  (List.perm_insertionSort _ l).nodup_iff.mpr h

theorem mem_sortStrs (l : List Str) (a : Str) : a ∈ sortStrs l ↔ a ∈ l :=
  (List.perm_insertionSort _ l).mem_iff

/-! ## Structure of the re-read table (toward claim C4) -/

theorem foldl_ainsert_build (g : Str → Rec) (ks : List Str) :
    ∀ acc : Table, ks.Nodup → (∀ k ∈ ks, alookup k acc = none) →
    akeys (ks.foldl (fun acc k => ainsert k (g k) acc) acc) = akeys acc ++ ks ∧
    (∀ k ∈ ks, alookup k (ks.foldl (fun acc k => ainsert k (g k) acc) acc) = some (g k)) ∧
    (∀ k, k ∉ ks → alookup k (ks.foldl (fun acc k => ainsert k (g k) acc) acc) =
      alookup k acc) := by
  induction ks with
  | nil => exact fun acc _ _ => ⟨by simp, fun k hk => absurd hk (List.not_mem_nil k),
      fun k _ => rfl⟩
  | cons k0 ks2 ih =>
    intro acc hnd habs
    have hk0 : alookup k0 acc = none := habs k0 (List.mem_cons_self k0 ks2)
    have hnd2 := (List.nodup_cons.mp hnd).2
    have hk0nmem := (List.nodup_cons.mp hnd).1
    have habs2 : ∀ k ∈ ks2, alookup k (ainsert k0 (g k0) acc) = none := by
      intro k hk
      rw [alookup_ainsert_ne (fun he => hk0nmem (by rw [he]; exact hk))]
      exact habs k (List.mem_cons_of_mem k0 hk)
    obtain ⟨ihk, ihl, ihp⟩ := ih (ainsert k0 (g k0) acc) hnd2 habs2
    rw [List.foldl_cons]
    refine ⟨?_, ?_, ?_⟩
    · rw [ihk, akeys_ainsert_absent hk0]
      simp
    · intro k hk
      rcases List.mem_cons.mp hk with h | h
      · subst h
        rw [ihp k hk0nmem, alookup_ainsert_self]
      · exact ihl k h
    · intro k hk
      rw [List.mem_cons] at hk
      push_neg at hk
      rw [ihp k hk.2, alookup_ainsert_ne (fun he => hk.1 he.symm)]

theorem dropTrailingBlank_append_blank (p : List Str) :
    dropTrailingBlank (dropTrailingBlank p ++ [[]]) = dropTrailingBlank p := by
  unfold dropTrailingBlank
  rw [List.reverse_append, List.reverse_reverse]
  rw [show (([[]] : List Str).reverse ++ p.reverse.dropWhile (fun l => strip l = [])) =
    [] :: p.reverse.dropWhile (fun l => strip l = []) from rfl]
  rw [List.dropWhile_cons_of_pos (by simp [strip_nil])]
  rw [List.dropWhile_idempotent]

/-- The glue logic of `write_table` as a standalone function of the joined
prose text and the joined table text. -/
def glueBody (t0 T : Str) : Str :=
  let t1 := if t0 ≠ [] ∧ endsNl t0 = false then t0 ++ nl else t0
  let t2 := if t1 ≠ [] ∧ ends2Nl t1 = false then
      (if endsNl t1 then t1 ++ nl else t1 ++ nl ++ nl) else t1
  if t2 ≠ [] then t2 ++ T else nl ++ T

theorem write_table_eq_glueBody (headers : List Str) (data : Table) (prose : List Str) :
    write_table headers data prose =
      glueBody (List.intercalate nl (dropTrailingBlank prose))
        (List.intercalate nl (tableLines headers data)) := rfl

/-- Second-run stability: re-running the pipeline on the first run's output
reproduces that output, under the stated sanity conditions on the first
run's headers, prose and merged records. -/
theorem second_run_stable (ids : List Str) (cn en : TransMap) (d1 : Table)
    (headers : List Str) (prose : List Str)
    (hh0 : headers.head? = some colId)
    (hhdr : ∀ x ∈ headers, strip x = x ∧ ('|' : Char) ∉ x ∧ ('\n' : Char) ∉ x)
    (hprose : ∀ l ∈ prose, isHeaderLine l = false ∧ ('\n' : Char) ∉ l)
    (hvals : ∀ kr ∈ merge_table_data ids cn en d1, ∀ cv ∈ kr.2,
      ('|' : Char) ∉ cv.2 ∧ ('\n' : Char) ∉ cv.2)
    (hkeys : ∀ kr ∈ merge_table_data ids cn en d1,
      strip (agetD kr.2 colId []) = kr.1 ∧ kr.1 ≠ [] ∧ kr.1 ≠ dashDash)
    (hnodup : (akeys (merge_table_data ids cn en d1)).Nodup) :
    pipeline ids cn en (write_table headers (merge_table_data ids cn en d1) prose) =
      write_table headers (merge_table_data ids cn en d1) prose := by
  set m := merge_table_data ids cn en d1 with hm
  have hread := read_back headers m prose hh0 hhdr hprose hvals hkeys
  set ks := sortStrs (akeys m) with hks
  set d2 := ks.foldl (fun acc k => ainsert k (rec2Of headers (agetD m k [])) acc) []
    with hd2
  have hpipe : pipeline ids cn en (write_table headers m prose) =
      write_table (read_existing_table (write_table headers m prose)).1
        (merge_table_data ids cn en
          (read_existing_table (write_table headers m prose)).2.1)
        (read_existing_table (write_table headers m prose)).2.2 := rfl
  rw [hpipe, hread]
  dsimp only
  -- structure of the re-read data
  have hksnd : ks.Nodup := sortStrs_nodup _ hnodup
  obtain ⟨hd2keys, hd2look, hd2abs⟩ := foldl_ainsert_build
    (fun k => rec2Of headers (agetD m k [])) ks [] hksnd (fun k _ => rfl)
  rw [show akeys ([] : Table) = [] from rfl, List.nil_append] at hd2keys
  -- every processed identifier is present in both tables
  have hmids : ∀ k ∈ sortStrs ids, (alookup k m).isSome := by
    intro k hk
    rw [hm]
    exact foldl_mergeStep_mem_isSome cn en (sortStrs ids) d1 k hk
  have hd2ids : ∀ k ∈ sortStrs ids, (alookup k d2).isSome := by
    intro k hk
    have hkm : k ∈ akeys m := by
      obtain ⟨v, hv⟩ := Option.isSome_iff_exists.mp (hmids k hk)
      exact mem_akeys_of_alookup hv
    have hkks : k ∈ ks := by
      rw [hks, mem_sortStrs]
      exact hkm
    rw [hd2look k hkks]
    rfl
  -- initial column-wise agreement between the re-read data and the merge
  have hinit : ∀ k rT rU, alookup k d2 = some rT → alookup k m = some rU →
      ∀ c ∈ headers, strip (agetD rT c []) = strip (agetD rU c []) := by
    intro k rT rU h1 h2 c hc
    have hkmem : k ∈ ks := by
      by_contra hkn
      rw [hd2abs k hkn] at h1
      exact Option.noConfusion h1
    rw [hd2look k hkmem] at h1
    have hrT : rec2Of headers (agetD m k []) = rT := by injection h1
    have hrU : agetD m k [] = rU := by
      unfold agetD
      rw [h2]
      rfl
    rw [← hrT, agetD_rec2Of, if_pos hc, hrU, strip_idem]
  have hlock := foldl_mergeStep_lockstep cn en headers (sortStrs ids) d2 m
    hd2ids hmids hinit
  have hfixm : (sortStrs ids).foldl (mergeStep cn en) m = m := by
    rw [hm]
    exact merge_merge_fix ids cn en d1
  have hm2keys : akeys (merge_table_data ids cn en d2) = ks := by
    show akeys ((sortStrs ids).foldl (mergeStep cn en) d2) = ks
    rw [foldl_mergeStep_keys_of_mem cn en (sortStrs ids) d2 hd2ids, hd2keys]
  -- the table block is reproduced cell by cell
  have htL : tableLines headers (merge_table_data ids cn en d2) = tableLines headers m := by
    unfold tableLines
    rw [hm2keys, hks, sortStrs_idem]
    refine congrArg (fun t => renderRow (headers.map renderCell)
      :: renderRow (headers.map (fun _ => "---".data)) :: t) ?_
    refine List.map_congr_left ?_
    intro k hk
    have hkm : k ∈ akeys m := (mem_sortStrs _ k).mp hk
    have hkks : k ∈ ks := by
      rw [hks, mem_sortStrs]
      exact hkm
    have hsome2 : (alookup k (merge_table_data ids cn en d2)).isSome := by
      refine alookup_isSome_of_mem_akeys ?_
      rw [hm2keys]
      exact hkks
    obtain ⟨rT, hrT⟩ := Option.isSome_iff_exists.mp hsome2
    obtain ⟨rU, hrU⟩ := Option.isSome_iff_exists.mp (alookup_isSome_of_mem_akeys hkm)
    have hvals2 := hlock k rT rU
      (show alookup k ((sortStrs ids).foldl (mergeStep cn en) d2) = some rT from hrT)
      (by rw [hfixm]; exact hrU)
    refine congrArg renderRow (List.map_congr_left ?_)
    intro hh hhh
    have e1 : agetD (merge_table_data ids cn en d2) k [] = rT := by
      unfold agetD
      rw [hrT]
      rfl
    have e2 : agetD m k [] = rU := by
      unfold agetD
      rw [hrU]
      rfl
    rw [e1, e2]
    unfold renderCell
    rw [hvals2 hh hhh]
  rw [write_table_eq_glueBody, write_table_eq_glueBody, dropTrailingBlank_append_blank, htL]

/-! ## Claim C4 -/

/-- Counterexample to C4 as stated: on a table whose trailing prose contains
a line that starts with `|` and mentions 标识符, the second run finds the
table header inside the prose of the first run's output and produces a
different file. -/
theorem C4_counterexample :
    pipeline [] [] [] (pipeline [] [] []
        "| 标识符 |\n| --- |\n| Day |\nX\n| 标识符 junk |".data) ≠
      pipeline [] [] [] "| 标识符 |\n| --- |\n| Day |\nX\n| 标识符 junk |".data := by
  decide

/-- Claim C4 (corrected): the pipeline is idempotent on every input whose
read state is sane: the headers start with 标识符 and are stripped,
pipe-free and newline-free; no prose line looks like a table header or
contains a newline; every merged cell value is pipe-free and newline-free;
every merged record's identifier cell strips to its key, which is non-empty
and not the placeholder `--`; and the merged keys are distinct.  Under these
conditions a second run over the first run's output is byte-identical to
it. -/
theorem C4_amended (ids : List Str) (cn en : TransMap) (content : Str)
    (hh0 : (read_existing_table content).1.head? = some colId)
    (hhdr : ∀ x ∈ (read_existing_table content).1,
      strip x = x ∧ ('|' : Char) ∉ x ∧ ('\n' : Char) ∉ x)
    (hprose : ∀ l ∈ (read_existing_table content).2.2,
      isHeaderLine l = false ∧ ('\n' : Char) ∉ l)
    (hvals : ∀ kr ∈ merge_table_data ids cn en (read_existing_table content).2.1,
      ∀ cv ∈ kr.2, ('|' : Char) ∉ cv.2 ∧ ('\n' : Char) ∉ cv.2)
    (hkeys : ∀ kr ∈ merge_table_data ids cn en (read_existing_table content).2.1,
      strip (agetD kr.2 colId []) = kr.1 ∧ kr.1 ≠ [] ∧ kr.1 ≠ dashDash)
    (hnodup : (akeys (merge_table_data ids cn en (read_existing_table content).2.1)).Nodup) :
    pipeline ids cn en (pipeline ids cn en content) = pipeline ids cn en content := by
  have hfirst : pipeline ids cn en content =
      write_table (read_existing_table content).1
        (merge_table_data ids cn en (read_existing_table content).2.1)
        (read_existing_table content).2.2 := rfl
  rw [hfirst]
  exact second_run_stable ids cn en (read_existing_table content).2.1
    (read_existing_table content).1 (read_existing_table content).2.2
    hh0 hhdr hprose hvals hkeys hnodup

/-- Witness for the corrected C4 at a concrete input. -/
theorem C4_witness :
    pipeline ["Sk8".data] [("name_sk8".data, "滑板".data)]
        [("name_sk8".data, "Sk8rs".data)]
        (pipeline ["Sk8".data] [("name_sk8".data, "滑板".data)]
          [("name_sk8".data, "Sk8rs".data)]
          "hello\n\n| 标识符 | 中文名 |\n| --- | --- |\n| Day | 白日 |".data) =
      pipeline ["Sk8".data] [("name_sk8".data, "滑板".data)]
        [("name_sk8".data, "Sk8rs".data)]
        "hello\n\n| 标识符 | 中文名 |\n| --- | --- |\n| Day | 白日 |".data :=
  C4_amended ["Sk8".data] [("name_sk8".data, "滑板".data)]
    [("name_sk8".data, "Sk8rs".data)]
    "hello\n\n| 标识符 | 中文名 |\n| --- | --- |\n| Day | 白日 |".data
    (by decide) (by decide) (by decide) (by decide) (by decide) (by decide)

/-! ## Claim C10 -/

/-- Counterexample to C10 as stated.  First input: the trailing
whitespace-only line `" "` is appended to the leading-prose block by the
reader, yet it appears nowhere in the serialized output (write_table drops
trailing blank prose lines).  Second input: a table with no data rows
serializes to output whose last line is the separator row, not a data
row. -/
theorem C10_counterexample :
    (read_existing_table "| 标识符 |\n| --- |\n| Day |\n ".data).2.2 = [[' ']] ∧
    ([' '] : Str) ∉ (pipeline [] [] [] "| 标识符 |\n| --- |\n| Day |\n ".data).splitOn '\n' ∧
    ((pipeline [] [] [] "| 标识符 |\n| --- |".data).splitOn '\n').getLast? =
      some "| --- |".data := by
  refine ⟨by decide, by decide, by decide⟩

/-- Claim C10 (corrected): trailing non-table lines are appended to the
leading-prose block; those that are not whitespace-only survive the
trailing-blank cleanup, and the serialized output starts with the joined
cleaned prose block followed by the table; whenever the merged record set is
non-empty, the output ends with the table's last data row. -/
theorem C10_amended (content : Str) (ids : List Str) (cn en : TransMap) :
    (∀ l ∈ (read_existing_table content).2.2, strip l ≠ [] →
        l ∈ dropTrailingBlank (read_existing_table content).2.2) ∧
    (∃ rest, pipeline ids cn en content =
        List.intercalate nl (dropTrailingBlank (read_existing_table content).2.2) ++ rest) ∧
    (akeys (merge_table_data ids cn en (read_existing_table content).2.1) ≠ [] →
      ∃ lastRow pre,
        (tableLines (read_existing_table content).1
            (merge_table_data ids cn en (read_existing_table content).2.1)).getLast? =
          some lastRow ∧
        pipeline ids cn en content = pre ++ lastRow) := by
  obtain ⟨glue, hg⟩ := write_table_shape (read_existing_table content).1
    (merge_table_data ids cn en (read_existing_table content).2.1)
    (read_existing_table content).2.2
  have hp : pipeline ids cn en content =
      write_table (read_existing_table content).1
        (merge_table_data ids cn en (read_existing_table content).2.1)
        (read_existing_table content).2.2 := rfl
  refine ⟨fun l hl hnb => mem_dropTrailingBlank _ l hl hnb, ?_, ?_⟩
  · exact ⟨glue ++ List.intercalate nl (tableLines (read_existing_table content).1
        (merge_table_data ids cn en (read_existing_table content).2.1)),
      by rw [hp, hg]; simp [List.append_assoc]⟩
  · intro hne
    have hs : sortStrs (akeys (merge_table_data ids cn en (read_existing_table content).2.1)) ≠
        [] := by
      intro h0
      apply hne
      have hperm := List.perm_insertionSort (fun a b => strLe a b = true)
        (akeys (merge_table_data ids cn en (read_existing_table content).2.1))
      rw [sortStrs] at h0
      rw [h0] at hperm
      exact hperm.nil_eq.symm
    cases hrows : sortStrs (akeys (merge_table_data ids cn en
        (read_existing_table content).2.1)) with
    | nil => exact absurd hrows hs
    | cons r0 rs =>
      have hlast : ∃ lastRow, (tableLines (read_existing_table content).1
          (merge_table_data ids cn en (read_existing_table content).2.1)).getLast? =
            some lastRow := by
        unfold tableLines
        rw [hrows, List.map_cons, List.getLast?_cons_cons, List.getLast?_cons_cons]
        refine Option.isSome_iff_exists.mp ?_
        rw [List.getLast?_isSome]
        simp
      obtain ⟨lastRow, hl⟩ := hlast
      obtain ⟨pre2, hp2⟩ := intercalate_getLast_suffix _ lastRow hl
      refine ⟨lastRow, List.intercalate nl (dropTrailingBlank
          (read_existing_table content).2.2) ++ glue ++ pre2, hl, ?_⟩
      rw [hp, hg, hp2]
      simp [List.append_assoc]

/-- Witness for the corrected C10 at a concrete input with one data row. -/
theorem C10_witness :
    ∃ lastRow pre,
      (tableLines (read_existing_table "| 标识符 |\n| --- |\n| Day |\n ".data).1
          (merge_table_data [] [] []
            (read_existing_table "| 标识符 |\n| --- |\n| Day |\n ".data).2.1)).getLast? =
        some lastRow ∧
      pipeline [] [] [] "| 标识符 |\n| --- |\n| Day |\n ".data = pre ++ lastRow :=
  (C10_amended "| 标识符 |\n| --- |\n| Day |\n ".data [] [] []).2.2 (by decide)

end SkyMap
